import Mathlib

/-!
# Verification of the protobuf-ts binary codec core

Shallow embedding of the repository's binary writer
(`src/unnamed/part_001`, class `BinaryWriter`) and reflection-driven
binary reader (`ReflectionBinaryReader`, embedded in
`src/packages/grpc-transport/spec/grpc-transport.spec.ts` after the
document separator).

Bytes are `Nat` values below 256 in `List Nat`; JS numbers holding
integers are `Int`/`Nat`; the mutable cursor of the reader becomes
explicit `(data, pos)` passing, and the mutable writer becomes explicit
state passing of its `(chunks, buf, stack)` record.

Support code of the repository that is *not* under `src/` (the varint
read/write helpers of goog-varint.ts, the assert helpers, PbLong/PbULong,
reflectionLongConvert, reflectionScalarDefault, the BinaryReader cursor
and UnknownFieldHandler.onRead) is modelled from the specification; each
such definition says so in its doc comment.
-/

namespace PTS

/-! ## Enumerations of the reflection schema -/

/-- ScalarType enumeration (reflection-info), as listed in the source's
scalar dispatch and the spec data model. -/
inductive ScalarType where
  | DOUBLE | FLOAT | INT64 | UINT64 | INT32 | FIXED64 | FIXED32 | BOOL
  | STRING | BYTES | UINT32 | SFIXED32 | SFIXED64 | SINT32 | SINT64
deriving DecidableEq, Repr

/-- LongType enumeration: how 64-bit integers are surfaced. -/
inductive LongType where
  | STRING | NUMBER | BIGINT
deriving DecidableEq, Repr

/-! ## Values

Host values a decoded field can hold.  Doubles and floats are represented
by the integer value of their little-endian byte image (bit pattern);
strings by Lean strings (UTF-8 decoded); byte chunks by their byte lists.
A oneof group value is the JS record with discriminant key
`oneofKind` and the member values as remaining keys. -/

inductive Val where
  | vInt (n : Int)
  | vBigInt (n : Int)
  | vStr (s : String)
  | vBool (b : Bool)
  | vBytes (bs : List Nat)
  | vF32 (bits : Nat)
  | vF64 (bits : Nat)
  | vArr (vs : List Val)
  | vMsg (fields : List (String × Val))
  | vMap (entries : List (Val × Val))
  | vOneof (oneofKind : String) (members : List (String × Val))

/-- A message object: assoc list from local field names to values. -/
abbrev Msg := List (String × Val)

/-- Property lookup on a JS object. -/
def mget : Msg → String → Option Val
  | [], _ => none
  | (k', v') :: t, k => if k' = k then some v' else mget t k

/-- Property assignment on a JS object: overwrite in place, append new. -/
def mset : Msg → String → Val → Msg
  | [], k, v => [(k, v)]
  | (k', v') :: t, k, v => if k' = k then (k, v) :: t else (k', v') :: mset t k v

/-- Key comparison for map insertion.  Map keys produced by the reader are
always flat scalar values (string or number per the source's key type). -/
def keyEq : Val → Val → Bool
  | .vInt a, .vInt b => a == b
  | .vBigInt a, .vBigInt b => a == b
  | .vStr a, .vStr b => a == b
  | .vBool a, .vBool b => a == b
  | .vBytes a, .vBytes b => a == b
  | .vF32 a, .vF32 b => a == b
  | .vF64 a, .vF64 b => a == b
  | _, _ => false

/-- Map entry insertion, overwriting an existing key. -/
def mapSet : List (Val × Val) → Val → Val → List (Val × Val)
  | [], k, v => [(k, v)]
  | (k', v') :: t, k, v => if keyEq k' k then (k, v) :: t else (k', v') :: mapSet t k v

/-! ## Errors

Error taxonomy of the spec, section 7. -/

inductive Err where
  | rangeError
  | invalidLongValue
  | malformedVarint
  | truncated
  | unknownField (typeName : String) (fieldNo wireType : Nat)
  | malformedMapEntry (typeName fieldName : String) (fieldNo wireType : Nat)
  | emptyForkStack
  | cantSkipWireType
  | typeError
  | stuck
deriving DecidableEq, Repr

/-! ## Varint encoding

The canonical LEB128 byte image of a natural number.  This is the loop of
`BinaryWriter.uint32` in the source (`while (value > 0x7f) push low7|0x80;
shift; push value`), which is also the encoding produced by
`varint64write` of the spec, section 4.2. -/

def varintEncCore : Nat → Nat → List Nat
  | 0, v => [v]
  | fuel + 1, v =>
    if v ≤ 0x7f then [v] else (v % 0x80 + 0x80) :: varintEncCore fuel (v / 0x80)

/-- The fuel `v` always suffices: each step divides by 128. -/
def varintEnc (v : Nat) : List Nat := varintEncCore v v

theorem varintEncCore_congr : ∀ (f1 f2 v : Nat), v ≤ f1 → v ≤ f2 →
    varintEncCore f1 v = varintEncCore f2 v := by
  intro f1
  induction f1 with
  | zero =>
    intro f2 v h1 _
    obtain rfl : v = 0 := by omega
    cases f2 with
    | zero => rfl
    | succ m => simp [varintEncCore]
  | succ n ih =>
    intro f2 v h1 h2
    by_cases hv : v ≤ 0x7f
    · cases f2 with
      | zero =>
        obtain rfl : v = 0 := by omega
        simp [varintEncCore]
      | succ m => simp [varintEncCore, hv]
    · cases f2 with
      | zero => omega
      | succ m =>
        have hdiv := Nat.div_lt_self (show 0 < v by omega) (show 1 < 0x80 by omega)
        simp only [varintEncCore, if_neg hv]
        congr 1
        exact ih m (v / 0x80) (by omega) (by omega)

/-- Small values encode as a single byte. -/
theorem varintEnc_small (v : Nat) (h : v ≤ 0x7f) : varintEnc v = [v] := by
  cases v with
  | zero => rfl
  | succ k => simp [varintEnc, varintEncCore, h]

theorem varintEnc_step (v : Nat) (h : 0x7f < v) :
    varintEnc v = (v % 0x80 + 0x80) :: varintEnc (v / 0x80) := by
  obtain ⟨k, rfl⟩ : ∃ k, v = k + 1 := ⟨v - 1, by omega⟩
  have hdiv := Nat.div_lt_self (show 0 < k + 1 by omega) (show 1 < 0x80 by omega)
  simp only [varintEnc, varintEncCore, if_neg (by omega : ¬ k + 1 ≤ 0x7f)]
  congr 1
  exact varintEncCore_congr k ((k + 1) / 0x80) ((k + 1) / 0x80) (by omega) le_rfl

theorem varintEnc_ne_nil (v : Nat) : varintEnc v ≠ [] := by
  by_cases h : v ≤ 0x7f
  · rw [varintEnc_small v h]; simp
  · rw [varintEnc_step v (by omega)]; simp

theorem varintEnc_length_pos (v : Nat) : 0 < (varintEnc v).length := by
  cases h : varintEnc v with
  | nil => exact absurd h (varintEnc_ne_nil v)
  | cons a t => simp

/-! ## Varint decoding

Modelled from the spec, section 4.2: read up to 10 bytes, low 7 bits per
byte, least-significant group first; fail with MalformedVarint if the
10th byte still has the continuation bit set or the stream ends
mid-varint.  The combined value is reduced modulo 2^64 (the reader
returns two 32-bit halves). -/

def readVarintCore (data : List Nat) : Nat → Nat → Nat → Nat → Except Err (Nat × Nat)
  | _, _, _, 0 => .error .malformedVarint
  | pos, shift, acc, fuel + 1 =>
    match data[pos]? with
    | none => .error .malformedVarint
    | some b =>
      if b < 0x80 then .ok ((acc + b * 2 ^ shift) % 2 ^ 64, pos + 1)
      else if fuel = 0 then .error .malformedVarint
      else readVarintCore data (pos + 1) (shift + 7) (acc + b % 0x80 * 2 ^ shift) fuel

/-- Modelled from the spec: the 64-bit varint read of the cursor,
returning the combined value and the new position. -/
def readVarint64 (data : List Nat) (pos : Nat) : Except Err (Nat × Nat) :=
  readVarintCore data pos 0 0 10

theorem readVarintCore_pos_lt {data : List Nat} {pos shift acc fuel v p'} :
    readVarintCore data pos shift acc fuel = .ok (v, p') → pos < p' := by
  induction fuel generalizing pos shift acc with
  | zero => intro h; simp [readVarintCore] at h
  | succ n ih =>
    intro h
    simp only [readVarintCore] at h
    cases hb : data[pos]? with
    | none => rw [hb] at h; simp at h
    | some b =>
      rw [hb] at h
      by_cases hlt : b < 0x80
      · simp [hlt] at h; omega
      · simp [hlt] at h
        by_cases hn : n = 0
        · simp [hn] at h
        · simp [hn] at h
          have := ih h
          omega

theorem readVarint64_pos_lt {data : List Nat} {pos v p'} :
    readVarint64 data pos = .ok (v, p') → pos < p' := by
  exact readVarintCore_pos_lt

/-! ## Locality of reads

`HasAt data pos l` says the byte list `l` occurs in `data` starting at
index `pos`.  All read primitives only inspect `data` through indexing,
so their behaviour on any stream containing a given encoding is fixed by
this predicate. -/

def HasAt (data : List Nat) (pos : Nat) (l : List Nat) : Prop :=
  ∀ i, i < l.length → data[pos + i]? = l[i]?

theorem HasAt.head {data : List Nat} {pos : Nat} {a : Nat} {t : List Nat}
    (h : HasAt data pos (a :: t)) : data[pos]? = some a := by
  have := h 0 (by simp)
  simpa using this

theorem HasAt.tail {data : List Nat} {pos : Nat} {a : Nat} {t : List Nat}
    (h : HasAt data pos (a :: t)) : HasAt data (pos + 1) t := by
  intro i hi
  have := h (i + 1) (by simpa using Nat.succ_lt_succ hi)
  simpa [Nat.add_assoc, Nat.add_comm 1 i] using this

theorem hasAt_append (pre l post : List Nat) :
    HasAt (pre ++ l ++ post) pre.length l := by
  intro i hi
  rw [List.append_assoc, List.getElem?_append_right (by omega)]
  rw [Nat.add_sub_cancel_left]
  simp [List.getElem?_append, hi]

theorem hasAt_of_append {data : List Nat} {pos : Nat} {l m : List Nat}
    (h : HasAt data pos (l ++ m)) : HasAt data pos l ∧ HasAt data (pos + l.length) m := by
  constructor
  · intro i hi
    have := h i (by simp; omega)
    rw [this]
    simp [List.getElem?_append, hi]
  · intro i hi
    have := h (l.length + i) (by simp; omega)
    rw [List.getElem?_append_right (by omega)] at this
    rw [Nat.add_sub_cancel_left] at this
    rwa [← Nat.add_assoc] at this

/-- Decoding the canonical varint encoding of `u` from anywhere in a
stream yields `u` folded into the accumulator, consuming exactly the
encoded bytes. -/
theorem readVarintCore_enc (u : Nat) : ∀ {data pos shift acc fuel},
    HasAt data pos (varintEnc u) → (varintEnc u).length ≤ fuel →
    readVarintCore data pos shift acc fuel
      = .ok ((acc + u * 2 ^ shift) % 2 ^ 64, pos + (varintEnc u).length) := by
  induction u using Nat.strong_induction_on with
  | _ u ih =>
    intro data pos shift acc fuel hat hlen
    by_cases hu : u ≤ 0x7f
    · rw [varintEnc_small u hu] at hat hlen ⊢
      obtain ⟨fuel, rfl⟩ : ∃ k, fuel = k + 1 := ⟨fuel - 1, by simp at hlen; omega⟩
      simp only [readVarintCore]
      rw [hat.head]
      simp [show u < 0x80 by omega]
    · have hstep := varintEnc_step u (by omega)
      rw [hstep] at hat hlen ⊢
      obtain ⟨fuel, rfl⟩ : ∃ k, fuel = k + 1 := ⟨fuel - 1, by simp at hlen; omega⟩
      simp only [readVarintCore]
      rw [hat.head]
      have hbe : ¬ (u % 0x80 + 0x80 < 0x80) := by omega
      simp only [hbe, if_false]
      have hk : fuel ≠ 0 := by
        have := varintEnc_length_pos (u / 0x80)
        simp at hlen; omega
      simp only [hk, if_false]
      have hrec := @ih (u / 0x80) (Nat.div_lt_self (by omega) (by omega))
        data (pos + 1) (shift + 7)
        (acc + (u % 0x80 + 0x80) % 0x80 * 2 ^ shift) fuel
        hat.tail (by simp at hlen ⊢; omega)
      rw [hrec]
      have h3 : u % 0x80 + u / 0x80 * 2 ^ 7 = u := by omega
      have harith : acc + (u % 0x80 + 0x80) % 0x80 * 2 ^ shift + u / 0x80 * 2 ^ (shift + 7)
          = acc + u * 2 ^ shift := by
        have h1 : (u % 0x80 + 0x80) % 0x80 = u % 0x80 := by omega
        calc acc + (u % 0x80 + 0x80) % 0x80 * 2 ^ shift + u / 0x80 * 2 ^ (shift + 7)
            = acc + (u % 0x80 + u / 0x80 * 2 ^ 7) * 2 ^ shift := by rw [h1, pow_add]; ring
          _ = acc + u * 2 ^ shift := by rw [h3]
      rw [harith]
      simp [List.length_cons]
      omega

theorem readVarint64_enc {data : List Nat} {pos : Nat} {u : Nat}
    (hat : HasAt data pos (varintEnc u)) (hu : u < 2 ^ 64) :
    readVarint64 data pos = .ok (u, pos + (varintEnc u).length) := by
  have hlen : (varintEnc u).length ≤ 10 := by
    clear hat
    have gen : ∀ k u : Nat, u < 2 ^ (7 * k + 7) → (varintEnc u).length ≤ k + 1 := by
      intro k
      induction k with
      | zero =>
        intro u hu
        rw [varintEnc_small u (by omega)]
        simp
      | succ n ihn =>
        intro u hu
        by_cases h : u ≤ 0x7f
        · rw [varintEnc_small u h]; simp
        · rw [varintEnc_step u (by omega)]
          simp only [List.length_cons]
          have : u / 0x80 < 2 ^ (7 * n + 7) := by
            have h2 : 2 ^ (7 * (n + 1) + 7) = 2 ^ (7 * n + 7) * 2 ^ 7 := by
              rw [← pow_add]; ring_nf
            rw [h2] at hu
            omega
          have := ihn (u / 0x80) this
          omega
    have h70 : u < 2 ^ (7 * 9 + 7) :=
      lt_of_lt_of_le hu (Nat.pow_le_pow_right (by omega) (by omega))
    have := gen 9 u h70
    omega
  have := @readVarintCore_enc u data pos 0 0 10 hat hlen
  rw [readVarint64, this]
  have hmod : (0 + u * 2 ^ 0) % 2 ^ 64 = u := by
    simp only [Nat.zero_add, pow_zero, Nat.mul_one]
    omega
  rw [hmod]

/-! ## Reader cursor primitives

Modelled from the spec, section 6 (cursor contracts): each primitive
advances the position by exactly the bytes consumed and fails with
TruncatedInput on underrun or MalformedVarint on overlong varints. -/

/-- Interpret a 32-bit unsigned value as a signed 32-bit integer
(JS `| 0`). -/
def toSigned32 (n : Nat) : Int :=
  if n % 2 ^ 32 < 2 ^ 31 then (n % 2 ^ 32 : Nat) else (n % 2 ^ 32 : Nat) - 2 ^ 32

/-- Interpret a 64-bit unsigned value as a signed 64-bit integer
(two's complement). -/
def toSigned64 (n : Nat) : Int :=
  if n % 2 ^ 64 < 2 ^ 63 then (n % 2 ^ 64 : Nat) else (n % 2 ^ 64 : Nat) - 2 ^ 64

/-- Zigzag decoding (spec section 8, law 2). -/
def zigzagDec (n : Nat) : Int :=
  if n % 2 = 0 then (n / 2 : Nat) else -((n / 2 : Nat) : Int) - 1

/-- Modelled from the spec: uint32 read takes the low 32 bits of a
varint. -/
def readUint32 (data : List Nat) (pos : Nat) : Except Err (Nat × Nat) :=
  (readVarint64 data pos).map fun r => (r.1 % 2 ^ 32, r.2)

/-- Modelled from the spec: read `n` raw bytes, TruncatedInput on underrun. -/
def readBytesN (data : List Nat) (pos n : Nat) : Except Err (List Nat × Nat) :=
  if pos + n ≤ data.length then .ok ((data.drop pos).take n, pos + n)
  else .error .truncated

/-- Little-endian value of a byte list. -/
def leVal (bs : List Nat) : Nat :=
  bs.foldr (fun b acc => b % 256 + 256 * acc) 0

/-- UTF-8 decoding of a byte list to characters, used by the string read.
Modelled from the spec (TextDecoder collaborator): malformed sequences
become U+FFFD. -/
def utf8DecodeCore : List Nat → List Char
  | [] => []
  | b :: t =>
    if b < 0x80 then Char.ofNat b :: utf8DecodeCore t
    else if b < 0xc0 then Char.ofNat 0xfffd :: utf8DecodeCore t
    else if b < 0xe0 then
      match t with
      | b1 :: t1 => Char.ofNat ((b % 0x20) * 0x40 + b1 % 0x40) :: utf8DecodeCore t1
      | [] => [Char.ofNat 0xfffd]
    else if b < 0xf0 then
      match t with
      | b1 :: b2 :: t2 =>
          Char.ofNat ((b % 0x10) * 0x1000 + (b1 % 0x40) * 0x40 + b2 % 0x40) :: utf8DecodeCore t2
      | _ => [Char.ofNat 0xfffd]
    else
      match t with
      | b1 :: b2 :: b3 :: t3 =>
          Char.ofNat ((b % 8) * 0x40000 + (b1 % 0x40) * 0x1000 + (b2 % 0x40) * 0x40 + b3 % 0x40)
            :: utf8DecodeCore t3
      | _ => [Char.ofNat 0xfffd]
def utf8Decode (bs : List Nat) : String := ⟨utf8DecodeCore bs⟩

/-- UTF-8 encoding of one character (TextEncoder collaborator, modelled
from the spec). -/
def utf8EncodeChar (c : Char) : List Nat :=
  let n := c.toNat
  if n < 0x80 then [n]
  else if n < 0x800 then [0xc0 + n / 0x40, 0x80 + n % 0x40]
  else if n < 0x10000 then [0xe0 + n / 0x1000, 0x80 + n / 0x40 % 0x40, 0x80 + n % 0x40]
  else [0xf0 + n / 0x40000, 0x80 + n / 0x1000 % 0x40, 0x80 + n / 0x40 % 0x40, 0x80 + n % 0x40]

def utf8Encode (s : String) : List Nat := (s.data.map utf8EncodeChar).flatten

/-- Modelled from the spec: int32 read, low 32 bits of a varint as a
signed integer. -/
def readInt32 (data : List Nat) (pos : Nat) : Except Err (Int × Nat) :=
  (readVarint64 data pos).map fun r => (toSigned32 r.1, r.2)

/-- Modelled from the spec: bool read, a varint compared against zero. -/
def readBool (data : List Nat) (pos : Nat) : Except Err (Bool × Nat) :=
  (readVarint64 data pos).map fun r => (decide (r.1 ≠ 0), r.2)

/-- Modelled from the spec: sint32 read, zigzag-decoded uint32. -/
def readSint32 (data : List Nat) (pos : Nat) : Except Err (Int × Nat) :=
  (readVarint64 data pos).map fun r => (zigzagDec (r.1 % 2 ^ 32), r.2)

/-- Modelled from the spec: fixed32 read, 4 bytes little-endian. -/
def readFixed32 (data : List Nat) (pos : Nat) : Except Err (Nat × Nat) :=
  (readBytesN data pos 4).map fun r => (leVal r.1, r.2)

/-- Modelled from the spec: sfixed32 read, 4 bytes little-endian signed. -/
def readSfixed32 (data : List Nat) (pos : Nat) : Except Err (Int × Nat) :=
  (readBytesN data pos 4).map fun r => (toSigned32 (leVal r.1), r.2)

/-- Modelled from the spec: fixed64 read, 8 bytes little-endian. -/
def readFixed64 (data : List Nat) (pos : Nat) : Except Err (Nat × Nat) :=
  (readBytesN data pos 8).map fun r => (leVal r.1, r.2)

/-- Modelled from the spec: sfixed64 read, 8 bytes little-endian signed. -/
def readSfixed64 (data : List Nat) (pos : Nat) : Except Err (Int × Nat) :=
  (readBytesN data pos 8).map fun r => (toSigned64 (leVal r.1), r.2)

/-- Modelled from the spec: int64 read, 64-bit varint two's complement. -/
def readInt64 (data : List Nat) (pos : Nat) : Except Err (Int × Nat) :=
  (readVarint64 data pos).map fun r => (toSigned64 r.1, r.2)

/-- Modelled from the spec: uint64 read, 64-bit varint. -/
def readUint64 (data : List Nat) (pos : Nat) : Except Err (Nat × Nat) :=
  readVarint64 data pos

/-- Modelled from the spec: sint64 read, zigzag-decoded 64-bit varint. -/
def readSint64 (data : List Nat) (pos : Nat) : Except Err (Int × Nat) :=
  (readVarint64 data pos).map fun r => (zigzagDec r.1, r.2)

/-- Modelled from the spec: length-delimited bytes read, a uint32 length
then that many raw bytes. -/
def readBytesField (data : List Nat) (pos : Nat) : Except Err (List Nat × Nat) := do
  let (len, p) ← readUint32 data pos
  readBytesN data p len

/-- Modelled from the spec: string read, length-delimited UTF-8 text. -/
def readString (data : List Nat) (pos : Nat) : Except Err (String × Nat) :=
  (readBytesField data pos).map fun r => (utf8Decode r.1, r.2)

/-- Modelled from the spec: float read, 4 bytes little-endian IEEE-754
binary32, represented by its byte image value. -/
def readFloat (data : List Nat) (pos : Nat) : Except Err (Nat × Nat) :=
  (readBytesN data pos 4).map fun r => (leVal r.1, r.2)

/-- Modelled from the spec: double read, 8 bytes little-endian IEEE-754
binary64, represented by its byte image value. -/
def readDouble (data : List Nat) (pos : Nat) : Except Err (Nat × Nat) :=
  (readBytesN data pos 8).map fun r => (leVal r.1, r.2)

/-- Modelled from the spec: reflectionLongConvert surfaces a 64-bit
integer per the LongType choice; the default (missing L) is a decimal
string. -/
def reflectionLongConvert (v : Int) (L : Option LongType) : Val :=
  match L with
  | some .BIGINT => .vBigInt v
  | some .NUMBER => .vInt v
  | _ => .vStr (toString v)

/-! ## Writer-side helpers modelled from the spec -/

/-- Modelled from the spec: assertUInt32 fails with RangeError outside
the unsigned 32-bit range. -/
def assertUInt32 (v : Nat) : Option Err :=
  if v < 2 ^ 32 then none else some .rangeError

/-- Modelled from the spec: assertInt32 fails with RangeError outside
the signed 32-bit range. -/
def assertInt32 (v : Int) : Option Err :=
  if -2 ^ 31 ≤ v ∧ v < 2 ^ 31 then none else some .rangeError

/-- Modelled from the spec: PbLong.from on an integer input, failing
with InvalidLongValue outside the signed 64-bit range. -/
def pbLongOf (v : Int) : Except Err Int :=
  if -2 ^ 63 ≤ v ∧ v < 2 ^ 63 then .ok v else .error .invalidLongValue

/-- Modelled from the spec: PbULong.from on an integer input, failing
with InvalidLongValue outside the unsigned 64-bit range. -/
def pbULongOf (v : Int) : Except Err Int :=
  if 0 ≤ v ∧ v < 2 ^ 64 then .ok v else .error .invalidLongValue

/-- Modelled from the spec (goog-varint varint32write): a non-negative
value is emitted as a plain varint; a negative 32-bit value is
sign-extended to 64 bits and emitted as a 10-byte varint. -/
def varint32write (v : Int) : List Nat :=
  if 0 ≤ v then varintEnc v.toNat else varintEnc (2 ^ 64 + v).toNat

/-- Zigzag encoding of a signed integer. -/
def zigzagEnc (v : Int) : Nat :=
  if 0 ≤ v then (2 * v).toNat else (-2 * v - 1).toNat

/-- Fixed-width little-endian byte image, `n` bytes. -/
def toLE : Nat → Nat → List Nat
  | 0, _ => []
  | n + 1, v => v % 256 :: toLE n (v / 256)

/-! ## BinaryWriter

Embedding of the source class `BinaryWriter` (src/unnamed/part_001).
State: completed chunks, the growing in-progress buffer, and the fork
stack of saved `(chunks, buf)` pairs (most recent first).  Fallible
methods return the error (if any) together with the state the JS object
holds at that point: the asserts run before any mutation, while `join`
mutates through its internal `finish()` call before discovering an empty
fork stack. -/

structure BinaryWriter where
  chunks : List (List Nat)
  buf : List Nat
  stack : List (List (List Nat) × List Nat)
deriving DecidableEq, Repr

namespace BinaryWriter

/-- The constructor state: empty chunks, empty buffer, empty stack. -/
def init : BinaryWriter := ⟨[], [], []⟩

/-- All bytes the writer currently holds in its chunks and buffer. -/
def out (w : BinaryWriter) : List Nat := w.chunks.flatten ++ w.buf

/-- Source `finish()`: flush the buffer into the chunk list, concatenate,
reset `chunks` to empty.  The source does not clear `this.buf`. -/
def finish (w : BinaryWriter) : List Nat × BinaryWriter :=
  ((w.chunks ++ [w.buf]).flatten, ⟨[], w.buf, w.stack⟩)

/-- Source `fork()`: push the current `(chunks, buf)` and start fresh. -/
def fork (w : BinaryWriter) : BinaryWriter :=
  ⟨[], [], (w.chunks, w.buf) :: w.stack⟩

/-- Source `raw()`: flush a non-empty buffer as a chunk, then append the
given chunk. -/
def raw (w : BinaryWriter) (chunk : List Nat) : BinaryWriter :=
  ⟨(if w.buf = [] then w.chunks else w.chunks ++ [w.buf]) ++ [chunk], [], w.stack⟩

/-- Source `uint32()`: assert range, then the inlined varint-32 loop. -/
def uint32 (w : BinaryWriter) (v : Nat) : Option Err × BinaryWriter :=
  match assertUInt32 v with
  | some e => (some e, w)
  | none => (none, ⟨w.chunks, w.buf ++ varintEnc v, w.stack⟩)

/-- Source `tag()`: `uint32((fieldNo << 3 | type) >>> 0)`; for wire types
below 8 the shifted-or value is `8 * fieldNo + wireType` modulo 2^32. -/
def tag (w : BinaryWriter) (fieldNo wireType : Nat) : Option Err × BinaryWriter :=
  w.uint32 ((8 * fieldNo + wireType) % 2 ^ 32)

/-- Source `join()`: finish the fork output, pop the previous state,
write the chunk length as uint32, then the chunk as raw bytes.  Fails
with EmptyForkStack when no fork is open — after the internal finish has
already run. -/
def join (w : BinaryWriter) : Option Err × BinaryWriter :=
  let r := w.finish
  match r.2.stack with
  | [] => (some .emptyForkStack, r.2)
  | prev :: rest =>
    let w2 : BinaryWriter := ⟨prev.1, prev.2, rest⟩
    match w2.uint32 r.1.length with
    | (some e, w3) => (some e, w3)
    | (none, w3) => (none, w3.raw r.1)

/-- Source `int32()`: assert signed 32-bit range, then varint32write. -/
def int32 (w : BinaryWriter) (v : Int) : Option Err × BinaryWriter :=
  match assertInt32 v with
  | some e => (some e, w)
  | none => (none, ⟨w.chunks, w.buf ++ varint32write v, w.stack⟩)

/-- Source `sint32()`: assert, zigzag-encode, varint32write (the zigzag
value is non-negative after the `>>> 0`). -/
def sint32 (w : BinaryWriter) (v : Int) : Option Err × BinaryWriter :=
  match assertInt32 v with
  | some e => (some e, w)
  | none => (none, ⟨w.chunks, w.buf ++ varintEnc (zigzagEnc v), w.stack⟩)

/-- Source `bool()`: one byte, 0 or 1, no assert. -/
def bool (w : BinaryWriter) (b : Bool) : BinaryWriter :=
  ⟨w.chunks, w.buf ++ [if b then 1 else 0], w.stack⟩

/-- Source `bytes()`: uint32 length then raw bytes. -/
def bytes (w : BinaryWriter) (bs : List Nat) : Option Err × BinaryWriter :=
  match w.uint32 bs.length with
  | (some e, w') => (some e, w')
  | (none, w') => (none, w'.raw bs)

/-- Source `string()`: UTF-8 encode, uint32 length, raw bytes. -/
def string (w : BinaryWriter) (s : String) : Option Err × BinaryWriter :=
  w.bytes (utf8Encode s)

/-- Source `fixed32()`: assert, 4 bytes little-endian. -/
def fixed32 (w : BinaryWriter) (v : Nat) : Option Err × BinaryWriter :=
  match assertUInt32 v with
  | some e => (some e, w)
  | none => (none, w.raw (toLE 4 v))

/-- Source `sfixed32()`: assert, 4 bytes little-endian two's
complement. -/
def sfixed32 (w : BinaryWriter) (v : Int) : Option Err × BinaryWriter :=
  match assertInt32 v with
  | some e => (some e, w)
  | none => (none, w.raw (toLE 4 (v % 2 ^ 32).toNat))

/-- Source `fixed64()`: PbULong.from, 8 bytes little-endian. -/
def fixed64 (w : BinaryWriter) (v : Int) : Option Err × BinaryWriter :=
  match pbULongOf v with
  | .error e => (some e, w)
  | .ok l => (none, w.raw (toLE 8 (l % 2 ^ 64).toNat))

/-- Source `sfixed64()`: PbLong.from, 8 bytes little-endian two's
complement. -/
def sfixed64 (w : BinaryWriter) (v : Int) : Option Err × BinaryWriter :=
  match pbLongOf v with
  | .error e => (some e, w)
  | .ok l => (none, w.raw (toLE 8 (l % 2 ^ 64).toNat))

/-- Source `int64()`: PbLong.from, 64-bit varint of the two's
complement halves. -/
def int64 (w : BinaryWriter) (v : Int) : Option Err × BinaryWriter :=
  match pbLongOf v with
  | .error e => (some e, w)
  | .ok l => (none, ⟨w.chunks, w.buf ++ varintEnc (l % 2 ^ 64).toNat, w.stack⟩)

/-- Source `sint64()`: PbLong.from, zigzag, 64-bit varint. -/
def sint64 (w : BinaryWriter) (v : Int) : Option Err × BinaryWriter :=
  match pbLongOf v with
  | .error e => (some e, w)
  | .ok l => (none, ⟨w.chunks, w.buf ++ varintEnc (zigzagEnc l), w.stack⟩)

/-- Source `uint64()`: PbULong.from, 64-bit varint. -/
def uint64 (w : BinaryWriter) (v : Int) : Option Err × BinaryWriter :=
  match pbULongOf v with
  | .error e => (some e, w)
  | .ok l => (none, ⟨w.chunks, w.buf ++ varintEnc l.toNat, w.stack⟩)

end BinaryWriter

/-! ## Sequences of writes

A write operation is one call of a `BinaryWriter` method; a sequence of
writes is run left to right, aborting at the first error (spec section 7
propagation policy). -/

inductive WOp where
  | tag (fieldNo wireType : Nat)
  | raw (chunk : List Nat)
  | uint32 (v : Nat)
  | int32 (v : Int)
  | sint32 (v : Int)
  | bool (b : Bool)
  | bytes (bs : List Nat)
  | string (s : String)
  | fixed32 (v : Nat)
  | sfixed32 (v : Int)
  | fixed64 (v : Int)
  | sfixed64 (v : Int)
  | int64 (v : Int)
  | sint64 (v : Int)
  | uint64 (v : Int)
  | fork
  | join
deriving DecidableEq, Repr

def toExcept : Option Err × BinaryWriter → Except Err BinaryWriter
  | (some e, _) => .error e
  | (none, w) => .ok w

def applyW : WOp → BinaryWriter → Except Err BinaryWriter
  | .tag no wt, w => toExcept (w.tag no wt)
  | .raw c, w => .ok (w.raw c)
  | .uint32 v, w => toExcept (w.uint32 v)
  | .int32 v, w => toExcept (w.int32 v)
  | .sint32 v, w => toExcept (w.sint32 v)
  | .bool b, w => .ok (w.bool b)
  | .bytes bs, w => toExcept (w.bytes bs)
  | .string s, w => toExcept (w.string s)
  | .fixed32 v, w => toExcept (w.fixed32 v)
  | .sfixed32 v, w => toExcept (w.sfixed32 v)
  | .fixed64 v, w => toExcept (w.fixed64 v)
  | .sfixed64 v, w => toExcept (w.sfixed64 v)
  | .int64 v, w => toExcept (w.int64 v)
  | .sint64 v, w => toExcept (w.sint64 v)
  | .uint64 v, w => toExcept (w.uint64 v)
  | .fork, w => .ok w.fork
  | .join, w => toExcept w.join

def runW : List WOp → BinaryWriter → Except Err BinaryWriter
  | [], w => .ok w
  | op :: t, w =>
    match applyW op w with
    | .error e => .error e
    | .ok w' => runW t w'

/-! ### Normal form of the non-fork, non-join writes

Every method other than `fork` and `join` either pushes bytes onto the
buffer or raw-appends a chunk, with success determined by the arguments
alone.  This normal form drives the fork/join equivalence proofs. -/

inductive PrimW where
  | toBuf (bs : List Nat)
  | toChunk (c : List Nat)

def primApply (w : BinaryWriter) : PrimW → BinaryWriter
  | .toBuf bs => ⟨w.chunks, w.buf ++ bs, w.stack⟩
  | .toChunk c => w.raw c

def primsApply (w : BinaryWriter) (ps : List PrimW) : BinaryWriter :=
  ps.foldl primApply w

def primOut : PrimW → List Nat
  | .toBuf bs => bs
  | .toChunk c => c

def wopPrims : WOp → Except Err (List PrimW)
  | .tag no wt => .ok [.toBuf (varintEnc ((8 * no + wt) % 2 ^ 32))]
  | .raw c => .ok [.toChunk c]
  | .uint32 v =>
    match assertUInt32 v with
    | some e => .error e
    | none => .ok [.toBuf (varintEnc v)]
  | .int32 v =>
    match assertInt32 v with
    | some e => .error e
    | none => .ok [.toBuf (varint32write v)]
  | .sint32 v =>
    match assertInt32 v with
    | some e => .error e
    | none => .ok [.toBuf (varintEnc (zigzagEnc v))]
  | .bool b => .ok [.toBuf [if b then 1 else 0]]
  | .bytes bs =>
    match assertUInt32 bs.length with
    | some e => .error e
    | none => .ok [.toBuf (varintEnc bs.length), .toChunk bs]
  | .string s =>
    match assertUInt32 (utf8Encode s).length with
    | some e => .error e
    | none => .ok [.toBuf (varintEnc (utf8Encode s).length), .toChunk (utf8Encode s)]
  | .fixed32 v =>
    match assertUInt32 v with
    | some e => .error e
    | none => .ok [.toChunk (toLE 4 v)]
  | .sfixed32 v =>
    match assertInt32 v with
    | some e => .error e
    | none => .ok [.toChunk (toLE 4 (v % 2 ^ 32).toNat)]
  | .fixed64 v =>
    match pbULongOf v with
    | .error e => .error e
    | .ok l => .ok [.toChunk (toLE 8 (l % 2 ^ 64).toNat)]
  | .sfixed64 v =>
    match pbLongOf v with
    | .error e => .error e
    | .ok l => .ok [.toChunk (toLE 8 (l % 2 ^ 64).toNat)]
  | .int64 v =>
    match pbLongOf v with
    | .error e => .error e
    | .ok l => .ok [.toBuf (varintEnc (l % 2 ^ 64).toNat)]
  | .sint64 v =>
    match pbLongOf v with
    | .error e => .error e
    | .ok l => .ok [.toBuf (varintEnc (zigzagEnc l))]
  | .uint64 v =>
    match pbULongOf v with
    | .error e => .error e
    | .ok l => .ok [.toBuf (varintEnc l.toNat)]
  | .fork => .error .stuck
  | .join => .error .stuck

theorem applyW_eq_prims (op : WOp) (h1 : op ≠ .fork) (h2 : op ≠ .join)
    (w : BinaryWriter) : applyW op w = (wopPrims op).map (primsApply w) := by
  cases op with
  | tag no wt =>
    simp [applyW, wopPrims, BinaryWriter.tag, BinaryWriter.uint32,
      assertUInt32, Nat.mod_lt, toExcept, Except.map, primsApply, primApply]
  | raw c => simp [applyW, wopPrims, Except.map, primsApply, primApply]
  | uint32 v =>
    cases h : assertUInt32 v <;>
      simp [applyW, wopPrims, BinaryWriter.uint32, h, toExcept, Except.map, primsApply, primApply]
  | int32 v =>
    cases h : assertInt32 v <;>
      simp [applyW, wopPrims, BinaryWriter.int32, h, toExcept, Except.map, primsApply, primApply]
  | sint32 v =>
    cases h : assertInt32 v <;>
      simp [applyW, wopPrims, BinaryWriter.sint32, h, toExcept, Except.map, primsApply, primApply]
  | bool b => simp [applyW, wopPrims, BinaryWriter.bool, Except.map, primsApply, primApply]
  | bytes bs =>
    cases h : assertUInt32 bs.length <;>
      simp [applyW, wopPrims, BinaryWriter.bytes, BinaryWriter.uint32, h, toExcept,
        Except.map, primsApply, primApply]
  | string s =>
    cases h : assertUInt32 (utf8Encode s).length <;>
      simp [applyW, wopPrims, BinaryWriter.string, BinaryWriter.bytes,
        BinaryWriter.uint32, h, toExcept, Except.map, primsApply, primApply]
  | fixed32 v =>
    cases h : assertUInt32 v <;>
      simp [applyW, wopPrims, BinaryWriter.fixed32, h, toExcept, Except.map, primsApply, primApply]
  | sfixed32 v =>
    cases h : assertInt32 v <;>
      simp [applyW, wopPrims, BinaryWriter.sfixed32, h, toExcept, Except.map, primsApply, primApply]
  | fixed64 v =>
    cases h : pbULongOf v <;>
      simp [applyW, wopPrims, BinaryWriter.fixed64, h, toExcept, Except.map, primsApply, primApply]
  | sfixed64 v =>
    cases h : pbLongOf v <;>
      simp [applyW, wopPrims, BinaryWriter.sfixed64, h, toExcept, Except.map, primsApply, primApply]
  | int64 v =>
    cases h : pbLongOf v <;>
      simp [applyW, wopPrims, BinaryWriter.int64, h, toExcept, Except.map, primsApply, primApply]
  | sint64 v =>
    cases h : pbLongOf v <;>
      simp [applyW, wopPrims, BinaryWriter.sint64, h, toExcept, Except.map, primsApply, primApply]
  | uint64 v =>
    cases h : pbULongOf v <;>
      simp [applyW, wopPrims, BinaryWriter.uint64, h, toExcept, Except.map, primsApply, primApply]
  | fork => exact absurd rfl h1
  | join => exact absurd rfl h2

theorem primApply_stack (w : BinaryWriter) (p : PrimW) :
    (primApply w p).stack = w.stack := by
  cases p <;> simp [primApply, BinaryWriter.raw]

theorem primApply_transport (w : BinaryWriter)
    (st' : List (List (List Nat) × List Nat)) (p : PrimW) :
    primApply ⟨w.chunks, w.buf, st'⟩ p
      = ⟨(primApply w p).chunks, (primApply w p).buf, st'⟩ := by
  cases p <;> simp [primApply, BinaryWriter.raw]

theorem primApply_out (w : BinaryWriter) (p : PrimW) :
    (primApply w p).out = w.out ++ primOut p := by
  cases p with
  | toBuf bs => simp [primApply, BinaryWriter.out, primOut]
  | toChunk c =>
    by_cases hb : w.buf = [] <;>
      simp [primApply, BinaryWriter.raw, BinaryWriter.out, primOut, hb]

theorem primsApply_stack (ps : List PrimW) : ∀ (w : BinaryWriter),
    (primsApply w ps).stack = w.stack := by
  induction ps with
  | nil => intro w; simp [primsApply]
  | cons p t ih =>
    intro w
    simp only [primsApply, List.foldl_cons]
    rw [show List.foldl primApply (primApply w p) t = primsApply (primApply w p) t from rfl]
    rw [ih, primApply_stack]

theorem primsApply_transport (ps : List PrimW) :
    ∀ (w : BinaryWriter) (st' : List (List (List Nat) × List Nat)),
    primsApply ⟨w.chunks, w.buf, st'⟩ ps
      = ⟨(primsApply w ps).chunks, (primsApply w ps).buf, st'⟩ := by
  induction ps with
  | nil => intro w st'; simp [primsApply]
  | cons p t ih =>
    intro w st'
    simp only [primsApply, List.foldl_cons]
    rw [primApply_transport w st' p]
    exact ih (primApply w p) st'

theorem primsApply_out (ps : List PrimW) : ∀ (w : BinaryWriter),
    (primsApply w ps).out = w.out ++ (ps.map primOut).flatten := by
  induction ps with
  | nil => intro w; simp [primsApply]
  | cons p t ih =>
    intro w
    simp only [primsApply, List.foldl_cons, List.map_cons, List.flatten_cons]
    rw [show List.foldl primApply (primApply w p) t = primsApply (primApply w p) t from rfl]
    rw [ih, primApply_out, List.append_assoc]

/-! ### Elementary writer-state lemmas -/

theorem raw_out (w : BinaryWriter) (c : List Nat) : (w.raw c).out = w.out ++ c := by
  by_cases hb : w.buf = [] <;> simp [BinaryWriter.raw, BinaryWriter.out, hb]

theorem raw_stack (w : BinaryWriter) (c : List Nat) : (w.raw c).stack = w.stack := by
  simp [BinaryWriter.raw]

theorem finish_fst (w : BinaryWriter) : (w.finish).1 = w.out := by
  simp [BinaryWriter.finish, BinaryWriter.out]

/-- Closed form of `join` over the writer state. -/
theorem join_eq (w : BinaryWriter) :
    w.join = match w.stack with
      | [] => (some .emptyForkStack, ⟨[], w.buf, w.stack⟩)
      | prev :: rest =>
        match assertUInt32 w.out.length with
        | some e => (some e, ⟨prev.1, prev.2, rest⟩)
        | none =>
          (none, BinaryWriter.raw ⟨prev.1, prev.2 ++ varintEnc w.out.length, rest⟩ w.out) := by
  cases hs : w.stack with
  | nil => simp [BinaryWriter.join, BinaryWriter.finish, hs]
  | cons prev rest =>
    cases ha : assertUInt32 w.out.length with
    | some e =>
      simp [BinaryWriter.join, BinaryWriter.finish, BinaryWriter.uint32, hs,
        finish_fst, BinaryWriter.out, List.flatten_append] at ha ⊢
      simp [ha]
    | none =>
      simp [BinaryWriter.join, BinaryWriter.finish, BinaryWriter.uint32, hs,
        finish_fst, BinaryWriter.out, List.flatten_append] at ha ⊢
      simp [ha]

/-! ### Simulation 1: a run that succeeds leaves frames below its own
forks untouched, so the fork stack may be extended arbitrarily. -/

theorem applyW_stack_ext (base : List (List (List Nat) × List Nat)) {op : WOp}
    {w w' : BinaryWriter} (h : applyW op w = .ok w') :
    applyW op ⟨w.chunks, w.buf, w.stack ++ base⟩ = .ok ⟨w'.chunks, w'.buf, w'.stack ++ base⟩ := by
  rcases em (op = .fork) with hf | hf
  · subst hf
    simp only [applyW, BinaryWriter.fork] at h ⊢
    obtain rfl := (Except.ok.injEq _ _).mp h.symm
    rfl
  rcases em (op = .join) with hj | hj
  · subst hj
    simp only [applyW] at h ⊢
    rw [join_eq] at h
    rw [join_eq]
    cases hs : w.stack with
    | nil => rw [hs] at h; simp [toExcept] at h
    | cons prev rest =>
      rw [hs] at h
      simp only [List.cons_append]
      cases ha : assertUInt32 w.out.length with
      | some e => rw [ha] at h; simp [toExcept] at h
      | none =>
        rw [ha] at h
        simp only [toExcept] at h
        obtain rfl := (Except.ok.injEq _ _).mp h.symm
        have hout : (⟨w.chunks, w.buf, prev :: (rest ++ base)⟩ : BinaryWriter).out = w.out := by
          simp [BinaryWriter.out]
        rw [hout, ha]
        simp only [toExcept, Except.ok.injEq]
        simp [BinaryWriter.raw]
  · rw [applyW_eq_prims op hf hj] at h
    rw [applyW_eq_prims op hf hj]
    cases hp : wopPrims op with
    | error e => rw [hp] at h; simp [Except.map] at h
    | ok ps =>
      rw [hp] at h
      simp only [Except.map, Except.ok.injEq] at h
      subst h
      simp only [Except.map, Except.ok.injEq]
      rw [primsApply_transport ps w (w.stack ++ base)]
      rw [primsApply_stack ps w]

theorem runW_stack_ext (W : List WOp) : ∀ {w w' : BinaryWriter}
    (base : List (List (List Nat) × List Nat)),
    runW W w = .ok w' →
    runW W ⟨w.chunks, w.buf, w.stack ++ base⟩ = .ok ⟨w'.chunks, w'.buf, w'.stack ++ base⟩ := by
  induction W with
  | nil =>
    intro w w' base h
    simp only [runW, Except.ok.injEq] at h
    subst h
    rfl
  | cons op t ih =>
    intro w w' base h
    simp only [runW] at h ⊢
    cases ha : applyW op w with
    | error e => rw [ha] at h; simp at h
    | ok wm =>
      rw [ha] at h
      rw [applyW_stack_ext base ha]
      exact ih base h

theorem runW_append (xs ys : List WOp) : ∀ (w : BinaryWriter),
    runW (xs ++ ys) w = match runW xs w with
      | .error e => .error e
      | .ok w' => runW ys w' := by
  induction xs with
  | nil => intro w; simp [runW]
  | cons op t ih =>
    intro w
    simp only [List.cons_append, runW]
    cases ha : applyW op w with
    | error e => simp
    | ok wm => exact ih wm

/-! ### Simulation 2: running a write sequence on an arbitrary state
produces the state's bytes followed by the bytes the sequence produces on
a fresh writer, as long as the sequence succeeds on the fresh writer. -/

def outF (f : List (List Nat) × List Nat) : List Nat := f.1.flatten ++ f.2

/-- Relation between a run of the same write sequence over an arbitrary
start state `S` and over a fresh writer: either both runs are at `S`'s
own fork depth, in which case the bytes differ exactly by `S.out` and the
stacks by `S.stack`; or both are inside forks opened by the sequence, in
which case the open regions agree exactly and the stacks agree except for
the bottom-most frame opened over `S`. -/
def WRel (S T1 T2 : BinaryWriter) : Prop :=
  (T2.stack = [] ∧ T1.out = S.out ++ T2.out ∧ T1.stack = S.stack) ∨
  (∃ upper f1 f2, T2.stack = upper ++ [f2] ∧ T1.stack = upper ++ f1 :: S.stack ∧
    outF f1 = S.out ++ outF f2 ∧ T1.chunks = T2.chunks ∧ T1.buf = T2.buf)

theorem WRel_step {S T1 T2 T2' : BinaryWriter} {op : WOp}
    (hrel : WRel S T1 T2) (h : applyW op T2 = .ok T2') :
    ∃ T1', applyW op T1 = .ok T1' ∧ WRel S T1' T2' := by
  rcases em (op = .fork) with hf | hf
  · subst hf
    simp only [applyW, Except.ok.injEq] at h
    subst h
    refine ⟨T1.fork, rfl, ?_⟩
    rcases hrel with ⟨h0, hout, hstk⟩ | ⟨upper, f1, f2, h2a, h2b, h2c, h2d, h2e⟩
    · right
      refine ⟨[], (T1.chunks, T1.buf), (T2.chunks, T2.buf), ?_, ?_, ?_, rfl, rfl⟩
      · simp [BinaryWriter.fork, h0]
      · simp [BinaryWriter.fork, hstk]
      · simpa [outF, BinaryWriter.out] using hout
    · right
      refine ⟨(T2.chunks, T2.buf) :: upper, f1, f2, ?_, ?_, h2c, rfl, rfl⟩
      · simp [BinaryWriter.fork, h2a]
      · simp [BinaryWriter.fork, h2b, h2d, h2e]
  rcases em (op = .join) with hj | hj
  · subst hj
    simp only [applyW] at h ⊢
    rw [join_eq] at h
    rw [join_eq]
    rcases hrel with ⟨h0, hout, hstk⟩ | ⟨upper, f1, f2, h2a, h2b, h2c, h2d, h2e⟩
    · rw [h0] at h
      simp [toExcept] at h
    · have hTout : T1.out = T2.out := by simp [BinaryWriter.out, h2d, h2e]
      rw [h2a] at h
      cases upper with
      | nil =>
        simp only [List.nil_append] at h h2b
        cases ha : assertUInt32 T2.out.length with
        | some e => rw [ha] at h; simp [toExcept] at h
        | none =>
          rw [ha] at h
          simp only [toExcept, Except.ok.injEq] at h
          subst h
          rw [h2b, hTout, ha]
          refine ⟨_, rfl, ?_⟩
          left
          refine ⟨raw_stack _ _, ?_, ?_⟩
          · rw [raw_out, raw_out]
            have e1 : (⟨f1.1, f1.2 ++ varintEnc T2.out.length, S.stack⟩ : BinaryWriter).out
                = outF f1 ++ varintEnc T2.out.length := by
              simp [BinaryWriter.out, outF]
            have e2 : (⟨f2.1, f2.2 ++ varintEnc T2.out.length, []⟩ : BinaryWriter).out
                = outF f2 ++ varintEnc T2.out.length := by
              simp [BinaryWriter.out, outF]
            rw [e1, e2, h2c]
            simp
          · rw [raw_stack]
      | cons f upper2 =>
        simp only [List.cons_append] at h h2a h2b ⊢
        cases ha : assertUInt32 T2.out.length with
        | some e => rw [ha] at h; simp [toExcept] at h
        | none =>
          rw [ha] at h
          simp only [toExcept, Except.ok.injEq] at h
          subst h
          rw [h2b, hTout, ha]
          refine ⟨_, rfl, ?_⟩
          right
          refine ⟨upper2, f1, f2, ?_, ?_, h2c, ?_, ?_⟩
          · rw [raw_stack]
          · rw [raw_stack]
          · simp [BinaryWriter.raw]
          · simp [BinaryWriter.raw]
  · rw [applyW_eq_prims op hf hj] at h
    cases hp : wopPrims op with
    | error e => rw [hp] at h; simp [Except.map] at h
    | ok ps =>
      rw [hp] at h
      simp only [Except.map, Except.ok.injEq] at h
      subst h
      refine ⟨primsApply T1 ps, ?_, ?_⟩
      · rw [applyW_eq_prims op hf hj, hp]
        simp [Except.map]
      · rcases hrel with ⟨h0, hout, hstk⟩ | ⟨upper, f1, f2, h2a, h2b, h2c, h2d, h2e⟩
        · left
          refine ⟨?_, ?_, ?_⟩
          · rw [primsApply_stack, h0]
          · rw [primsApply_out, primsApply_out, hout, List.append_assoc]
          · rw [primsApply_stack, hstk]
        · right
          have hT1 : T1 = ⟨T2.chunks, T2.buf, T1.stack⟩ := by
            rcases T1 with ⟨a, b, c⟩
            simp_all
          refine ⟨upper, f1, f2, ?_, ?_, h2c, ?_, ?_⟩
          · rw [primsApply_stack, h2a]
          · rw [primsApply_stack, h2b]
          · rw [hT1, primsApply_transport ps T2 T1.stack]
          · rw [hT1, primsApply_transport ps T2 T1.stack]

theorem WRel_run (W : List WOp) : ∀ {T1 T2 T2' : BinaryWriter} (S : BinaryWriter),
    WRel S T1 T2 → runW W T2 = .ok T2' →
    ∃ T1', runW W T1 = .ok T1' ∧ WRel S T1' T2' := by
  induction W with
  | nil =>
    intro T1 T2 T2' S hrel h
    simp only [runW, Except.ok.injEq] at h
    subst h
    exact ⟨T1, rfl, hrel⟩
  | cons op t ih =>
    intro T1 T2 T2' S hrel h
    simp only [runW] at h ⊢
    cases ha : applyW op T2 with
    | error e => rw [ha] at h; simp at h
    | ok Tm =>
      rw [ha] at h
      obtain ⟨T1m, h1, hrelm⟩ := WRel_step hrel ha
      rw [h1]
      exact ih S hrelm h

/-! ### Varint length bounds -/

theorem varintEnc_length_le : ∀ (k u : Nat), u < 2 ^ (7 * k + 7) →
    (varintEnc u).length ≤ k + 1 := by
  intro k
  induction k with
  | zero =>
    intro u hu
    rw [varintEnc_small u (by omega)]
    simp
  | succ n ihn =>
    intro u hu
    by_cases h : u ≤ 0x7f
    · rw [varintEnc_small u h]; simp
    · rw [varintEnc_step u (by omega)]
      simp only [List.length_cons]
      have hdiv : u / 0x80 < 2 ^ (7 * n + 7) := by
        have h2 : 2 ^ (7 * (n + 1) + 7) = 2 ^ (7 * n + 7) * 2 ^ 7 := by
          rw [← pow_add]; ring_nf
        rw [h2] at hu
        omega
      have := ihn (u / 0x80) hdiv
      omega

theorem varintEnc_length_ge : ∀ (k u : Nat), 2 ^ (7 * k) ≤ u →
    k + 1 ≤ (varintEnc u).length := by
  intro k
  induction k with
  | zero =>
    intro u _
    have := varintEnc_length_pos u
    omega
  | succ n ih =>
    intro u h
    have h128 : (0x80 : Nat) ≤ 2 ^ (7 * (n + 1)) := by
      calc (0x80 : Nat) = 2 ^ 7 := by norm_num
        _ ≤ 2 ^ (7 * (n + 1)) := Nat.pow_le_pow_right (by omega) (by omega)
    rw [varintEnc_step u (by omega)]
    simp only [List.length_cons]
    have hdiv : 2 ^ (7 * n) ≤ u / 0x80 := by
      apply (Nat.le_div_iff_mul_le (by omega)).mpr
      calc 2 ^ (7 * n) * 0x80 = 2 ^ (7 * n) * 2 ^ 7 := by norm_num
        _ = 2 ^ (7 * (n + 1)) := by rw [← pow_add]; ring_nf
        _ ≤ u := h
    have := ih (u / 0x80) hdiv
    omega

/-- A value in the top half of the 64-bit range encodes as exactly 10
varint bytes. -/
theorem varintEnc_length_ten (u : Nat) (h1 : 2 ^ 63 ≤ u) (h2 : u < 2 ^ 64) :
    (varintEnc u).length = 10 := by
  have hge := varintEnc_length_ge 9 u (by norm_num at h1 ⊢; omega)
  have hle := varintEnc_length_le 9 u (by norm_num at h2 ⊢; omega)
  omega

/-! ## Claim C4 -/

/-- C4: for every writer state `S` and every write sequence `W` that on
its own is fork/join balanced (it succeeds on a fresh writer and leaves
no open fork), running `fork(); W; join()` on `S` produces the bytes of
`S`, then a uint32 varint encoding the length of `W`'s fresh-writer
output, then that output; and running `W` alone on `S` produces the
bytes of `S` followed by `W`'s output — so the two runs differ exactly
by the prepended varint length.  The length hypothesis mirrors that a JS
`Uint8Array` cannot reach 2^32 bytes. -/
theorem c4_fork_join (S F : BinaryWriter) (W : List WOp)
    (h1 : runW W BinaryWriter.init = .ok F)
    (h2 : F.stack = [])
    (h3 : F.out.length < 2 ^ 32) :
    (∃ S2, runW (WOp.fork :: (W ++ [WOp.join])) S = .ok S2 ∧
        S2.out = S.out ++ varintEnc F.out.length ++ F.out ∧ S2.stack = S.stack)
    ∧ (∃ S1, runW W S = .ok S1 ∧ S1.out = S.out ++ F.out ∧ S1.stack = S.stack) := by
  constructor
  · have hext := runW_stack_ext W ((S.chunks, S.buf) :: S.stack) h1
    simp only [BinaryWriter.init, List.nil_append, h2] at hext
    have hjoin : applyW .join ⟨F.chunks, F.buf, (S.chunks, S.buf) :: S.stack⟩
        = .ok (BinaryWriter.raw ⟨S.chunks, S.buf ++ varintEnc F.out.length, S.stack⟩ F.out) := by
      show toExcept (BinaryWriter.join _) = _
      rw [join_eq]
      have hGout : (⟨F.chunks, F.buf, (S.chunks, S.buf) :: S.stack⟩ : BinaryWriter).out
          = F.out := by
        simp [BinaryWriter.out]
      have ha : assertUInt32 F.out.length = none := by
        simp only [assertUInt32, if_pos h3]
      simp only [hGout, ha, toExcept]
    refine ⟨BinaryWriter.raw ⟨S.chunks, S.buf ++ varintEnc F.out.length, S.stack⟩ F.out,
      ?_, ?_, ?_⟩
    · have e1 : runW (WOp.fork :: (W ++ [WOp.join])) S
          = runW (W ++ [WOp.join]) ⟨[], [], (S.chunks, S.buf) :: S.stack⟩ := rfl
      rw [e1, runW_append, hext]
      show runW [WOp.join] _ = _
      simp only [runW, hjoin]
    · rw [raw_out]
      simp [BinaryWriter.out]
    · rw [raw_stack]
  · have hrel0 : WRel S S BinaryWriter.init := by
      left
      exact ⟨rfl, by simp [BinaryWriter.out, BinaryWriter.init], rfl⟩
    obtain ⟨S1, hrun, hrel⟩ := WRel_run W S hrel0 h1
    refine ⟨S1, hrun, ?_⟩
    rcases hrel with ⟨_, hout, hstk⟩ | ⟨upper, f1, f2, h2a, _, _, _, _⟩
    · exact ⟨hout, hstk⟩
    · rw [h2] at h2a
      exact absurd h2a (by simp)

theorem c4_fork_join_witness :
    (runW [WOp.uint32 5] BinaryWriter.init = .ok ⟨[], [5], []⟩
      ∧ ([] : List (List (List Nat) × List Nat)) = []
      ∧ ((⟨[], [5], []⟩ : BinaryWriter).out.length < 2 ^ 32))
    ∧ ((∃ S2, runW (WOp.fork :: ([WOp.uint32 5] ++ [WOp.join]))
            (⟨[[1]], [2], []⟩ : BinaryWriter) = .ok S2 ∧
          S2.out = (⟨[[1]], [2], []⟩ : BinaryWriter).out
              ++ varintEnc (⟨[], [5], []⟩ : BinaryWriter).out.length
              ++ (⟨[], [5], []⟩ : BinaryWriter).out
          ∧ S2.stack = (⟨[[1]], [2], []⟩ : BinaryWriter).stack)
      ∧ (∃ S1, runW [WOp.uint32 5] (⟨[[1]], [2], []⟩ : BinaryWriter) = .ok S1 ∧
          S1.out = (⟨[[1]], [2], []⟩ : BinaryWriter).out ++ (⟨[], [5], []⟩ : BinaryWriter).out
          ∧ S1.stack = (⟨[[1]], [2], []⟩ : BinaryWriter).stack)) :=
  ⟨⟨rfl, rfl, by decide⟩,
    c4_fork_join ⟨[[1]], [2], []⟩ ⟨[], [5], []⟩ [WOp.uint32 5] rfl rfl (by decide)⟩

/-! ## Claim C5 -/

/-- C5 evidence: `finish()` flushes the buffer and resets the chunk list
but does not clear `this.buf`, so the writer is not in a fresh state
afterwards.  Writing `uint32 5`, finishing (which yields `[5]`), then
writing `uint32 7` and finishing again yields `[5, 7]` — the byte `5`
from before the first finish reappears — whereas a newly constructed
writer writing `uint32 7` finishes to `[7]`. -/
theorem c5_finish_not_fresh :
    ((BinaryWriter.init.uint32 5).2.finish).1 = [5]
    ∧ (((((BinaryWriter.init.uint32 5).2.finish).2.uint32 7).2.finish).1 = [5, 7])
    ∧ ((BinaryWriter.init.uint32 7).2.finish).1 = [7] := by decide

/-! ## Claim C8 -/

/-- C8 as stated is false: `join()` on an empty fork stack does raise
EmptyForkStack, but the writer's observable state is changed by the
failed call, because `join` runs `finish()` before checking the stack.
After `raw [1]` the writer would finish to `[1]`, yet after the failed
`join` it finishes to `[]`. -/
theorem c8_counterexample :
    (BinaryWriter.init.raw [1]).join = (some Err.emptyForkStack, ⟨[], [], []⟩)
    ∧ (((BinaryWriter.init.raw [1]).join).2.finish).1 = []
    ∧ ((BinaryWriter.init.raw [1]).finish).1 = [1] := by decide

/-- C8 amended: `join()` on a writer with an empty fork stack raises
EmptyForkStack, but the call has already run `finish()`: the completed
chunks are flushed away and only the in-progress buffer survives, so a
subsequent `finish()` returns just the old buffer bytes rather than
everything the writer held. -/
theorem c8_join_empty_stack (w : BinaryWriter) (h : w.stack = []) :
    w.join = (some Err.emptyForkStack, ⟨[], w.buf, []⟩)
    ∧ (((⟨[], w.buf, []⟩ : BinaryWriter).finish).1 = w.buf) := by
  constructor
  · rw [join_eq, h]
  · simp [BinaryWriter.finish]

theorem c8_join_empty_stack_witness :
    ((⟨[[1]], [2], []⟩ : BinaryWriter).stack = []) ∧
    ((⟨[[1]], [2], []⟩ : BinaryWriter).join = (some Err.emptyForkStack, ⟨[], [2], []⟩)
      ∧ (((⟨[], [2], []⟩ : BinaryWriter).finish).1 = [2])) :=
  ⟨rfl, c8_join_empty_stack ⟨[[1]], [2], []⟩ rfl⟩

/-! ## Claim C9 -/

/-- C9: `int32(v)` on a negative in-range value emits `v` sign-extended
to 64 bits as a 10-byte varint (in particular `tag(1, Varint)` then
`int32(-1)` finishes to `08 ff ff ff ff ff ff ff ff ff 01`), and any
value outside the signed 32-bit range fails with RangeError before
writing anything, leaving the writer unchanged.  (Non-integer host
numbers are outside this integer-valued model; the source rejects them
with the same RangeError before mutating.) -/
theorem c9_int32 (w : BinaryWriter) (v : Int) :
    (-2 ^ 31 ≤ v ∧ v < 0 →
        w.int32 v = (none, ⟨w.chunks, w.buf ++ varintEnc (2 ^ 64 + v).toNat, w.stack⟩)
        ∧ (varintEnc (2 ^ 64 + v).toNat).length = 10)
    ∧ ((((BinaryWriter.init.tag 1 0).2.int32 (-1)).2.finish).1
        = [0x08, 0xff, 0xff, 0xff, 0xff, 0xff, 0xff, 0xff, 0xff, 0xff, 0x01])
    ∧ (v < -2 ^ 31 ∨ 2 ^ 31 ≤ v → w.int32 v = (some Err.rangeError, w)) := by
  refine ⟨?_, by decide, ?_⟩
  · rintro ⟨hlo, hhi⟩
    constructor
    · have ha : assertInt32 v = none := by
        unfold assertInt32
        rw [if_pos ⟨hlo, by omega⟩]
      simp only [BinaryWriter.int32, ha]
      have hw : varint32write v = varintEnc (2 ^ 64 + v).toNat := by
        rw [varint32write, if_neg (by omega)]
      rw [hw]
    · apply varintEnc_length_ten
      · have h63 : (2 : Int) ^ 63 ≤ 2 ^ 64 + v := by omega
        omega
      · have h64 : (2 : Int) ^ 64 + v < 2 ^ 64 := by omega
        omega
  · intro hout
    have ha : assertInt32 v = some Err.rangeError := by
      have hc : ¬ (-2 ^ 31 ≤ v ∧ v < 2 ^ 31) := by
        rcases hout with h | h
        · intro hc; omega
        · intro hc; omega
      unfold assertInt32
      rw [if_neg hc]
    simp [BinaryWriter.int32, ha]

theorem c9_int32_witness :
    ((-2 ^ 31 ≤ (-5 : Int) ∧ (-5 : Int) < 0)
      ∧ (BinaryWriter.init.int32 (-5)
            = (none, ⟨[], varintEnc (2 ^ 64 + (-5 : Int)).toNat, []⟩)
          ∧ (varintEnc (2 ^ 64 + (-5 : Int)).toNat).length = 10))
    ∧ BinaryWriter.init.int32 (2 ^ 31) = (some Err.rangeError, BinaryWriter.init) :=
  ⟨⟨by decide, (c9_int32 BinaryWriter.init (-5)).1 (by decide)⟩,
    (c9_int32 BinaryWriter.init (2 ^ 31)).2.2 (by decide)⟩

/-! ## Reflection schema and read options

The reader consumes a `MessageInfo` (field descriptor table).  A nested
message type carries its codec as a function — the embedding of the
lazy `T()` accessor yielding `internalBinaryRead` — and, for map values,
also the `create()` result used for a missing value. -/

/-- The `readUnknownField` option: "throw", false, true, or a custom
handler. -/
inductive URF where
  | uThrow
  | uFalse
  | uTrue
  | uCallable (f : String → Msg → Nat → Nat → List Nat → Msg)

structure BinaryReadOptions where
  readUnknownField : URF

/-- The shape of `internalBinaryRead` of a nested codec: data, position,
length of the delimited region, options, and an optional merge target;
returns the message value and the new position. -/
def InnerCodec : Type :=
  List Nat → Nat → Nat → BinaryReadOptions → Option Val → Except Err (Val × Nat)

inductive MapV where
  | scalar (T : ScalarType) (L : Option LongType)
  | enum
  | message (T : InnerCodec) (create : Val)

inductive FieldKind where
  | scalar (T : ScalarType) (L : Option LongType)
  | enum
  | message (T : InnerCodec)
  | map (K : ScalarType) (V : MapV)

/-- Repeat mode; `NO = 0` is falsy in the source's `if (repeated)`. -/
inductive RepeatType where
  | no
  | packed
  | unpacked
deriving DecidableEq, Repr

def RepeatType.isOn : RepeatType → Bool
  | .no => false
  | .packed => true
  | .unpacked => true

/-- Field descriptor; `rep` is the source's `repeat` member. -/
structure FieldInfo where
  no : Nat
  name : String
  localName : String
  kind : FieldKind
  rep : RepeatType
  oneof : Option String

structure MessageInfo where
  typeName : String
  fields : List FieldInfo

/-- The `field_number → FieldInfo` index: a JS `Map` built from the field
list, so a later duplicate field number overwrites an earlier one. -/
def fieldLookup (fs : List FieldInfo) (no : Nat) : Option FieldInfo :=
  fs.foldl (fun acc f => if f.no = no then some f else acc) none

/-! ## Skipping and unknown-field recording -/

/-- Modelled from the spec: skipping a varint scans to the first byte
without the continuation bit; running off the end is a truncation
error. -/
def skipVarintScan (data : List Nat) : Nat → Nat → Except Err Nat
  | 0, _ => .error .truncated
  | fuel + 1, pos =>
    match data[pos]? with
    | none => .error .truncated
    | some b => if b < 0x80 then .ok (pos + 1) else skipVarintScan data fuel (pos + 1)

def sliceBytes (data : List Nat) (a b : Nat) : List Nat := (data.take b).drop a

/-- Modelled from the spec: `skip(wireType)` consumes one value per wire
type (varint scan, 8 bytes, 4 bytes, or a varint length plus that many
bytes) and returns the skipped raw bytes, starting at the tag's end. -/
def skipWire (data : List Nat) (pos : Nat) (wireType : Nat) :
    Except Err (List Nat × Nat) :=
  match wireType with
  | 0 =>
    match skipVarintScan data (data.length + 1) pos with
    | .error e => .error e
    | .ok p' => .ok (sliceBytes data pos p', p')
  | 1 =>
    if pos + 8 ≤ data.length then .ok (sliceBytes data pos (pos + 8), pos + 8)
    else .error .truncated
  | 5 =>
    if pos + 4 ≤ data.length then .ok (sliceBytes data pos (pos + 4), pos + 4)
    else .error .truncated
  | 2 =>
    match readUint32 data pos with
    | .error e => .error e
    | .ok (len, p1) =>
      if p1 + len ≤ data.length then .ok (sliceBytes data pos (p1 + len), p1 + len)
      else .error .truncated
  | _ => .error .cantSkipWireType

/-- Modelled from the spec: `UnknownFieldHandler.onRead` appends the raw
tagged bytes, keyed by field number and wire type, to the message's
unknown-field store, preserving insertion order.  The store lives under a
reserved key of the target object (a symbol property in the source). -/
def unknownFieldsKey : String := "$unknownFields"

def onReadUnknown (msg : Msg) (fieldNo wireType : Nat) (d : List Nat) : Msg :=
  let entry := Val.vMsg [("no", .vInt fieldNo), ("wireType", .vInt wireType),
    ("data", .vBytes d)]
  match mget msg unknownFieldsKey with
  | some (.vArr entries) => mset msg unknownFieldsKey (.vArr (entries ++ [entry]))
  | _ => mset msg unknownFieldsKey (.vArr [entry])

/-- Modelled from the spec: reflectionScalarDefault, the zero value of a
scalar type (64-bit integers surfaced through the LongType choice). -/
def reflectionScalarDefault (T : ScalarType) (L : Option LongType) : Val :=
  match T with
  | .BOOL => .vBool false
  | .STRING => .vStr ""
  | .BYTES => .vBytes []
  | .DOUBLE => .vF64 0
  | .FLOAT => .vF32 0
  | .INT64 => reflectionLongConvert 0 L
  | .UINT64 => reflectionLongConvert 0 L
  | .FIXED64 => reflectionLongConvert 0 L
  | .SFIXED64 => reflectionLongConvert 0 L
  | .SINT64 => reflectionLongConvert 0 L
  | _ => .vInt 0

def boolToString (b : Bool) : String := if b then "true" else "false"

/-! ## ReflectionBinaryReader

Embedding of the source class, method by method. -/

/-- Source `scalar()`: dispatch one primitive read on the scalar type;
64-bit integer types pass through reflectionLongConvert. -/
def ReflectionBinaryReader.scalar (data : List Nat) (pos : Nat) (type : ScalarType)
    (longType : Option LongType) : Except Err (Val × Nat) :=
  match type with
  | .INT32 => (readInt32 data pos).map fun r => (Val.vInt r.1, r.2)
  | .STRING => (readString data pos).map fun r => (Val.vStr r.1, r.2)
  | .BOOL => (readBool data pos).map fun r => (Val.vBool r.1, r.2)
  | .DOUBLE => (readDouble data pos).map fun r => (Val.vF64 r.1, r.2)
  | .FLOAT => (readFloat data pos).map fun r => (Val.vF32 r.1, r.2)
  | .INT64 => (readInt64 data pos).map fun r => (reflectionLongConvert r.1 longType, r.2)
  | .UINT64 => (readUint64 data pos).map fun r => (reflectionLongConvert (r.1 : Int) longType, r.2)
  | .FIXED64 => (readFixed64 data pos).map fun r => (reflectionLongConvert (r.1 : Int) longType, r.2)
  | .FIXED32 => (readFixed32 data pos).map fun r => (Val.vInt (r.1 : Int), r.2)
  | .BYTES => (readBytesField data pos).map fun r => (Val.vBytes r.1, r.2)
  | .UINT32 => (readUint32 data pos).map fun r => (Val.vInt (r.1 : Int), r.2)
  | .SFIXED32 => (readSfixed32 data pos).map fun r => (Val.vInt r.1, r.2)
  | .SFIXED64 => (readSfixed64 data pos).map fun r => (reflectionLongConvert r.1 longType, r.2)
  | .SINT32 => (readSint32 data pos).map fun r => (Val.vInt r.1, r.2)
  | .SINT64 => (readSint64 data pos).map fun r => (reflectionLongConvert r.1 longType, r.2)

/-- The write target of one field read: the message itself, or the oneof
group record (with its discriminant and member properties). -/
inductive RTarget where
  | plain (m : Msg)
  | inOneof (g : String) (k : String) (members : Msg)

def RTarget.get : RTarget → String → Option Val
  | .plain m, k => mget m k
  | .inOneof _ _ mem, k => mget mem k

def RTarget.set : RTarget → String → Val → RTarget
  | .plain m, k, v => .plain (mset m k v)
  | .inOneof g kk mem, k, v => .inOneof g kk (mset mem k v)

/-- Write the target back into the message: the oneof group record is
stored under its group name (in the source the record is already aliased
by `message[field.oneof]`). -/
def RTarget.commit : RTarget → Msg → Msg
  | .plain m, _ => m
  | .inOneof g k mem, msg => mset msg g (.vOneof k mem)

/-- Source oneof routing: if another member is selected (or the group
record's `oneofKind` is not this field), replace the group with a fresh
record `{oneofKind: localName}`.  A missing group record is a JS
TypeError (`undefined.oneofKind`). -/
def targetOf (msg : Msg) (field : FieldInfo) : Except Err RTarget :=
  match field.oneof with
  | none => .ok (.plain msg)
  | some g =>
    match mget msg g with
    | none => .error .typeError
    | some (.vOneof k mem) =>
      if k = field.localName then .ok (.inOneof g k mem)
      else .ok (.inOneof g field.localName [])
    | some _ => .ok (.inOneof g field.localName [])

/-- The packed-repeated inner loop: read scalars back-to-back until the
sub-end.  Extra fuel argument for structural recursion; the position
strictly advances, so fuel `e` suffices and the `stuck` fallback is
unreachable. -/
def packedRead (data : List Nat) (T : ScalarType) (L : Option LongType) :
    Nat → Nat → List Val → Nat → Except Err (List Val × Nat)
  | 0, e, acc, pos => if pos < e then .error .stuck else .ok (acc, pos)
  | fuel + 1, e, acc, pos =>
    if pos < e then
      match ReflectionBinaryReader.scalar data pos T L with
      | .error err => .error err
      | .ok (v, p') =>
        if p' ≤ pos then .error .stuck
        else packedRead data T L fuel e (acc ++ [v]) p'
    else .ok (acc, pos)

/-- Source scalar/enum dispatch case: packed when repeated, length
delimited, and not STRING/BYTES; else one value, appended when repeated
and assigned when singular. -/
def scalarFieldStep (data : List Nat) (pos : Nat) (T : ScalarType)
    (L : Option LongType) (repeated : Bool) (wireType : Nat) (tgt : RTarget)
    (localName : String) : Except Err (RTarget × Nat) :=
  if repeated then
    match tgt.get localName with
    | some (.vArr arr) =>
      if wireType = 2 ∧ T ≠ .STRING ∧ T ≠ .BYTES then
        match readUint32 data pos with
        | .error e => .error e
        | .ok (len, p1) =>
          match packedRead data T L (p1 + len) (p1 + len) [] p1 with
          | .error e => .error e
          | .ok (vs, p2) => .ok (tgt.set localName (.vArr (arr ++ vs)), p2)
      else
        match ReflectionBinaryReader.scalar data pos T L with
        | .error e => .error e
        | .ok (v, p1) => .ok (tgt.set localName (.vArr (arr ++ [v])), p1)
    | _ => .error .typeError
  else
    match ReflectionBinaryReader.scalar data pos T L with
    | .error e => .error e
    | .ok (v, p1) => .ok (tgt.set localName v, p1)

/-- The loop body of source `mapEntry()`: accept field 1 (key) and
field 2 (value) until the sub-end; any other field number is a
MalformedMapEntry error. -/
def mapEntryLoop (typeName fieldName : String) (K : ScalarType) (V : MapV)
    (data : List Nat) (opts : BinaryReadOptions) :
    Nat → Nat → Option Val → Option Val → Nat →
      Except Err (Option Val × Option Val × Nat)
  | 0, e, key?, val?, pos =>
    if pos < e then .error .stuck else .ok (key?, val?, pos)
  | fuel + 1, e, key?, val?, pos =>
    if pos < e then
      match readUint32 data pos with
      | .error err => .error err
      | .ok (tagv, p1) =>
        let fieldNo := tagv / 8
        let wireType := tagv % 8
        if fieldNo = 1 then
          if K = .BOOL then
            match readBool data p1 with
            | .error err => .error err
            | .ok (b, p2) =>
              if p2 ≤ pos then .error .stuck
              else mapEntryLoop typeName fieldName K V data opts fuel e
                (some (.vStr (boolToString b))) val? p2
          else
            match ReflectionBinaryReader.scalar data p1 K (some .STRING) with
            | .error err => .error err
            | .ok (k, p2) =>
              if p2 ≤ pos then .error .stuck
              else mapEntryLoop typeName fieldName K V data opts fuel e (some k) val? p2
        else if fieldNo = 2 then
          match V with
          | .scalar T L =>
            match ReflectionBinaryReader.scalar data p1 T L with
            | .error err => .error err
            | .ok (v, p2) =>
              if p2 ≤ pos then .error .stuck
              else mapEntryLoop typeName fieldName K V data opts fuel e key? (some v) p2
          | .enum =>
            match readInt32 data p1 with
            | .error err => .error err
            | .ok (n, p2) =>
              if p2 ≤ pos then .error .stuck
              else mapEntryLoop typeName fieldName K V data opts fuel e key?
                (some (.vInt n)) p2
          | .message inner _ =>
            match readUint32 data p1 with
            | .error err => .error err
            | .ok (len, p2) =>
              match inner data p2 len opts none with
              | .error err => .error err
              | .ok (m, p3) =>
                if p3 ≤ pos then .error .stuck
                else mapEntryLoop typeName fieldName K V data opts fuel e key? (some m) p3
        else .error (.malformedMapEntry typeName fieldName fieldNo wireType)
    else .ok (key?, val?, pos)

/-- Source `mapEntry()`: a varint length, the key/value loop, then
defaults for a missing key (zero of K, BOOL stringified) and a missing
value (scalar default, enum 0, or `create()`). -/
def ReflectionBinaryReader.mapEntry (typeName fieldName : String) (K : ScalarType)
    (V : MapV) (data : List Nat) (pos : Nat) (opts : BinaryReadOptions) :
    Except Err ((Val × Val) × Nat) :=
  match readUint32 data pos with
  | .error e => .error e
  | .ok (length, p0) =>
    match mapEntryLoop typeName fieldName K V data opts (p0 + length) (p0 + length)
        none none p0 with
    | .error e => .error e
    | .ok (key?, val?, p1) =>
      let key := match key? with
        | some k => k
        | none =>
          let keyRaw := reflectionScalarDefault K none
          if K = .BOOL then
            match keyRaw with
            | .vBool b => .vStr (boolToString b)
            | v => v
          else keyRaw
      let v := match val? with
        | some v => v
        | none =>
          match V with
          | .scalar T L => reflectionScalarDefault T L
          | .enum => .vInt 0
          | .message _ create => create
      .ok ((key, v), p1)

/-- The kind dispatch of one recognised field (the `switch (field.kind)`
of source `read()`), acting on the routed target. -/
def kindStep (typeName : String) (field : FieldInfo) (opts : BinaryReadOptions)
    (data : List Nat) (wireType : Nat) (tgt : RTarget) (pos : Nat) :
    Except Err (RTarget × Nat) :=
  match field.kind with
  | .scalar T L => scalarFieldStep data pos T L field.rep.isOn wireType tgt field.localName
  | .enum => scalarFieldStep data pos .INT32 none field.rep.isOn wireType tgt field.localName
  | .message inner =>
    if field.rep.isOn then
      match tgt.get field.localName with
      | some (.vArr arr) =>
        match readUint32 data pos with
        | .error e => .error e
        | .ok (len, p1) =>
          match inner data p1 len opts none with
          | .error e => .error e
          | .ok (m, p2) => .ok (tgt.set field.localName (.vArr (arr ++ [m])), p2)
      | _ => .error .typeError
    else
      match readUint32 data pos with
      | .error e => .error e
      | .ok (len, p1) =>
        match inner data p1 len opts (tgt.get field.localName) with
        | .error e => .error e
        | .ok (m, p2) => .ok (tgt.set field.localName m, p2)
  | .map K V =>
    match ReflectionBinaryReader.mapEntry typeName field.name K V data pos opts with
    | .error e => .error e
    | .ok ((k, v), p1) =>
      match tgt.get field.localName with
      | some (.vMap entries) =>
        .ok (tgt.set field.localName (.vMap (mapSet entries k v)), p1)
      | _ => .error .typeError

/-- One iteration of source `read()`: read the tag, look up the field,
handle unknown fields per options, route oneof members, dispatch on the
field kind, and write the target back. -/
def ReflectionBinaryReader.readStep (info : MessageInfo) (opts : BinaryReadOptions)
    (data : List Nat) (msg : Msg) (pos : Nat) : Except Err (Msg × Nat) :=
  match readUint32 data pos with
  | .error e => .error e
  | .ok (tagv, p1) =>
    let fieldNo := tagv / 8
    let wireType := tagv % 8
    match fieldLookup info.fields fieldNo with
    | none =>
      match opts.readUnknownField with
      | .uThrow => .error (.unknownField info.typeName fieldNo wireType)
      | u =>
        match skipWire data p1 wireType with
        | .error e => .error e
        | .ok (d, p2) =>
          match u with
          | .uFalse => .ok (msg, p2)
          | .uTrue => .ok (onReadUnknown msg fieldNo wireType d, p2)
          | .uCallable f => .ok (f info.typeName msg fieldNo wireType d, p2)
          | .uThrow => .ok (msg, p2)
    | some field =>
      match targetOf msg field with
      | .error e => .error e
      | .ok tgt =>
        match kindStep info.typeName field opts data wireType tgt p1 with
        | .error e => .error e
        | .ok (tgt', p2) => .ok (tgt'.commit msg, p2)

/-- The `while (reader.pos < end)` loop of source `read()`, with a fuel
argument for structural recursion; the position strictly advances on
every successful step, so fuel `endPos` suffices. -/
def ReflectionBinaryReader.readLoop (info : MessageInfo) (opts : BinaryReadOptions)
    (data : List Nat) (endPos : Nat) : Nat → Msg → Nat → Except Err (Msg × Nat)
  | 0, msg, pos => if pos < endPos then .error .stuck else .ok (msg, pos)
  | fuel + 1, msg, pos =>
    if pos < endPos then
      match ReflectionBinaryReader.readStep info opts data msg pos with
      | .error e => .error e
      | .ok (m', p') =>
        if p' ≤ pos then .error .stuck
        else ReflectionBinaryReader.readLoop info opts data endPos fuel m' p'
    else .ok (msg, pos)

/-- Source `read(reader, message, options, length?)`: decode from the
current position to the reader's end (or `pos + length`), mutating the
target message; returns the final message and position. -/
def ReflectionBinaryReader.read (info : MessageInfo) (opts : BinaryReadOptions)
    (data : List Nat) (msg : Msg) (pos : Nat) (len? : Option Nat) :
    Except Err (Msg × Nat) :=
  let endPos := match len? with
    | none => data.length
    | some l => pos + l
  ReflectionBinaryReader.readLoop info opts data endPos endPos msg pos

/-- Modelled from the spec: the generated `internalBinaryRead` of a
nested message type — use the given target or `create()` a fresh
message, then run the reflection read over the length-delimited
region. -/
def internalBinaryReadOf (info : MessageInfo) (create : Msg) : InnerCodec :=
  fun data pos len opts tgt =>
    let m0 := match tgt with
      | some (.vMsg m) => m
      | _ => create
    match ReflectionBinaryReader.read info opts data m0 pos (some len) with
    | .error e => .error e
    | .ok (m, p) => .ok (Val.vMsg m, p)

/-! ## Association-list lemmas -/

theorem mget_mset_self (m : Msg) (k : String) (v : Val) :
    mget (mset m k v) k = some v := by
  induction m with
  | nil => simp [mget, mset]
  | cons hd t ih =>
    rcases hd with ⟨k0, v0⟩
    by_cases hk : k0 = k <;> simp [mget, mset, hk, ih]

theorem mset_mset (m : Msg) (k : String) (v1 v2 : Val) :
    mset (mset m k v1) k v2 = mset m k v2 := by
  induction m with
  | nil => simp [mset]
  | cons hd t ih =>
    rcases hd with ⟨k0, v0⟩
    by_cases hk : k0 = k <;> simp [mset, hk, ih]

theorem mset_self (m : Msg) (k : String) (v : Val) (h : mget m k = some v) :
    mset m k v = m := by
  induction m with
  | nil => simp [mget] at h
  | cons hd t ih =>
    rcases hd with ⟨k0, v0⟩
    by_cases hk : k0 = k
    · subst hk
      simp [mget] at h
      simp [mset, h]
    · simp [mget, hk] at h
      simp [mset, hk, ih h]

theorem mget_mset_ne (m : Msg) (k k' : String) (v : Val) (h : k ≠ k') :
    mget (mset m k v) k' = mget m k' := by
  induction m with
  | nil => simp [mget, mset, h]
  | cons hd t ih =>
    rcases hd with ⟨k0, v0⟩
    by_cases hk : k0 = k
    · subst hk
      simp [mset, mget, h]
    · by_cases hk' : k0 = k' <;> simp [mset, mget, hk, hk', ih, Ne.symm h]

/-! ## Position-advance lemmas for the read primitives -/

theorem exceptMap_ok {α β : Type} {f : α → β} {x : Except Err α} {b : β}
    (h : x.map f = .ok b) : ∃ a, x = .ok a ∧ b = f a := by
  cases x with
  | error e => simp [Except.map] at h
  | ok a =>
    refine ⟨a, rfl, ?_⟩
    simpa [Except.map] using h.symm

theorem readUint32_pos_lt {data : List Nat} {pos v p'}
    (h : readUint32 data pos = .ok (v, p')) : pos < p' := by
  simp only [readUint32] at h
  obtain ⟨a, hx, hb⟩ := exceptMap_ok h
  have hp : p' = a.2 := by simpa using congrArg Prod.snd hb
  have := readVarint64_pos_lt hx
  omega

theorem readBytesN_ok {data : List Nat} {pos n bs p'}
    (h : readBytesN data pos n = .ok (bs, p')) : p' = pos + n := by
  simp only [readBytesN] at h
  split at h
  · have h1 := (Except.ok.injEq _ _).mp h
    have h2 := congrArg Prod.snd h1
    simpa using h2.symm
  · simp at h

theorem readBytesField_pos_lt {data : List Nat} {pos bs p'}
    (h : readBytesField data pos = .ok (bs, p')) : pos < p' := by
  simp only [readBytesField, bind, Except.bind] at h
  cases hu : readUint32 data pos with
  | error e => rw [hu] at h; simp at h
  | ok r =>
    rw [hu] at h
    have h1 := readUint32_pos_lt hu
    have h2 := readBytesN_ok h
    omega

/-- Any map that preserves the position component: from a successful
mapped read, recover the underlying read ending at the same position. -/
theorem map_snd_ok {α β : Type} {x : Except Err (α × Nat)} {F : α × Nat → β × Nat}
    {v : β} {p' : Nat} (h : x.map F = .ok (v, p'))
    (hF : ∀ r, (F r).2 = r.2) :
    ∃ r, x = .ok r ∧ r.2 = p' := by
  obtain ⟨a, hx, hb⟩ := exceptMap_ok h
  refine ⟨a, hx, ?_⟩
  have h2 := congrArg Prod.snd hb
  simp only [hF a] at h2
  exact h2.symm

theorem scalar_pos_lt {data : List Nat} {pos : Nat} {T : ScalarType}
    {L : Option LongType} {v p'}
    (h : ReflectionBinaryReader.scalar data pos T L = .ok (v, p')) : pos < p' := by
  cases T <;> simp only [ReflectionBinaryReader.scalar, readInt32, readString, readBool,
    readDouble, readFloat, readInt64, readUint64, readFixed64, readFixed32,
    readUint32, readSfixed32, readSfixed64, readSint32, readSint64] at h <;>
    obtain ⟨⟨v1, q1⟩, hx, hp1⟩ := map_snd_ok h (fun r => rfl)
  case INT64 =>
    obtain ⟨⟨v2, q2⟩, hy, hp2⟩ := map_snd_ok hx (fun r => rfl)
    have := readVarint64_pos_lt hy
    omega
  case UINT64 =>
    have := readVarint64_pos_lt hx
    omega
  case INT32 =>
    obtain ⟨⟨v2, q2⟩, hy, hp2⟩ := map_snd_ok hx (fun r => rfl)
    have := readVarint64_pos_lt hy
    omega
  case BOOL =>
    obtain ⟨⟨v2, q2⟩, hy, hp2⟩ := map_snd_ok hx (fun r => rfl)
    have := readVarint64_pos_lt hy
    omega
  case SINT32 =>
    obtain ⟨⟨v2, q2⟩, hy, hp2⟩ := map_snd_ok hx (fun r => rfl)
    have := readVarint64_pos_lt hy
    omega
  case SINT64 =>
    obtain ⟨⟨v2, q2⟩, hy, hp2⟩ := map_snd_ok hx (fun r => rfl)
    have := readVarint64_pos_lt hy
    omega
  case UINT32 =>
    obtain ⟨⟨v2, q2⟩, hy, hp2⟩ := map_snd_ok hx (fun r => rfl)
    have := readVarint64_pos_lt hy
    omega
  case DOUBLE =>
    obtain ⟨⟨v2, q2⟩, hy, hp2⟩ := map_snd_ok hx (fun r => rfl)
    have := readBytesN_ok hy
    omega
  case FLOAT =>
    obtain ⟨⟨v2, q2⟩, hy, hp2⟩ := map_snd_ok hx (fun r => rfl)
    have := readBytesN_ok hy
    omega
  case FIXED64 =>
    obtain ⟨⟨v2, q2⟩, hy, hp2⟩ := map_snd_ok hx (fun r => rfl)
    have := readBytesN_ok hy
    omega
  case FIXED32 =>
    obtain ⟨⟨v2, q2⟩, hy, hp2⟩ := map_snd_ok hx (fun r => rfl)
    have := readBytesN_ok hy
    omega
  case SFIXED32 =>
    obtain ⟨⟨v2, q2⟩, hy, hp2⟩ := map_snd_ok hx (fun r => rfl)
    have := readBytesN_ok hy
    omega
  case SFIXED64 =>
    obtain ⟨⟨v2, q2⟩, hy, hp2⟩ := map_snd_ok hx (fun r => rfl)
    have := readBytesN_ok hy
    omega
  case STRING =>
    obtain ⟨⟨v2, q2⟩, hy, hp2⟩ := map_snd_ok hx (fun r => rfl)
    have := readBytesField_pos_lt hy
    omega
  case BYTES =>
    have := readBytesField_pos_lt hx
    omega

/-! ## Parsing predicates for single encoded values -/

/-- `ScalarParses T L c v`: the byte chunk `c`, wherever it occurs in a
stream, is read by the scalar dispatch as the value `v`, consuming
exactly `c`. -/
def ScalarParses (T : ScalarType) (L : Option LongType) (c : List Nat) (v : Val) : Prop :=
  ∀ data pos, HasAt data pos c →
    ReflectionBinaryReader.scalar data pos T L = .ok (v, pos + c.length)

theorem hasAt_self (c : List Nat) : HasAt c 0 c := by
  intro i hi
  simp

theorem ScalarParses.length_pos {T L c v} (h : ScalarParses T L c v) : 0 < c.length := by
  have := h c 0 (hasAt_self c)
  have := scalar_pos_lt this
  omega

/-- A varint-encoded value parses as INT32 wherever it occurs. -/
theorem scalarParses_int32 (u : Nat) (hu : u < 2 ^ 64) (L : Option LongType) :
    ScalarParses .INT32 L (varintEnc u) (.vInt (toSigned32 u)) := by
  intro data pos h
  simp [ReflectionBinaryReader.scalar, readInt32, readVarint64_enc h hu, Except.map]

theorem readUint32_enc {data : List Nat} {pos : Nat} {u : Nat}
    (hat : HasAt data pos (varintEnc u)) (hu : u < 2 ^ 32) :
    readUint32 data pos = .ok (u, pos + (varintEnc u).length) := by
  have h64 : u < 2 ^ 64 := lt_of_lt_of_le hu (by norm_num)
  have hmod : u % 2 ^ 32 = u := Nat.mod_eq_of_lt hu
  simp [readUint32, readVarint64_enc hat h64, Except.map, hmod]
  omega

/-! ## Step characterisation lemmas -/

theorem readStep_known {info : MessageInfo} {opts : BinaryReadOptions}
    {data : List Nat} {msg : Msg} {pos tagv p1 p2 : Nat} {f : FieldInfo}
    {tgt tgt' : RTarget}
    (htag : readUint32 data pos = .ok (tagv, p1))
    (hl : fieldLookup info.fields (tagv / 8) = some f)
    (ht : targetOf msg f = .ok tgt)
    (hk : kindStep info.typeName f opts data (tagv % 8) tgt p1 = .ok (tgt', p2)) :
    ReflectionBinaryReader.readStep info opts data msg pos = .ok (tgt'.commit msg, p2) := by
  simp [ReflectionBinaryReader.readStep, htag, hl, ht, hk]

theorem kindStep_scalarish {tn : String} {f : FieldInfo} {T L opts data wt tgt pos}
    (hk : f.kind = .scalar T L ∨ (f.kind = .enum ∧ T = .INT32 ∧ L = none)) :
    kindStep tn f opts data wt tgt pos
      = scalarFieldStep data pos T L f.rep.isOn wt tgt f.localName := by
  rcases hk with h | ⟨h, rfl, rfl⟩ <;> simp [kindStep, h]

theorem packedRead_stop {data T L fuel e acc pos} (h : ¬ pos < e) :
    packedRead data T L fuel e acc pos = .ok (acc, pos) := by
  cases fuel <;> simp [packedRead, h]

theorem readLoop_stop {info opts data endPos fuel msg pos} (h : ¬ pos < endPos) :
    ReflectionBinaryReader.readLoop info opts data endPos fuel msg pos = .ok (msg, pos) := by
  cases fuel <;> simp [ReflectionBinaryReader.readLoop, h]

theorem readLoop_peel {info opts data endPos fuel msg pos m' p'}
    (hpos : pos < endPos)
    (hstep : ReflectionBinaryReader.readStep info opts data msg pos = .ok (m', p'))
    (hlt : pos < p') (hf : 0 < fuel) :
    ReflectionBinaryReader.readLoop info opts data endPos fuel msg pos
      = ReflectionBinaryReader.readLoop info opts data endPos (fuel - 1) m' p' := by
  obtain ⟨k, rfl⟩ : ∃ k, fuel = k + 1 := ⟨fuel - 1, by omega⟩
  simp [ReflectionBinaryReader.readLoop, hpos, hstep, show ¬ p' ≤ pos by omega]

/-- The packed inner loop over a concatenation of self-delimiting scalar
encodings appends exactly the corresponding values. -/
theorem packedRead_chunks {T : ScalarType} {L : Option LongType}
    {cs : List (List Nat)} {vs : List Val}
    (hcv : List.Forall₂ (ScalarParses T L) cs vs) :
    ∀ {data : List Nat} {pos fuel : Nat} {acc : List Val},
      HasAt data pos cs.flatten → cs.flatten.length ≤ fuel →
      packedRead data T L fuel (pos + cs.flatten.length) acc pos
        = .ok (acc ++ vs, pos + cs.flatten.length) := by
  induction hcv with
  | nil =>
    intro data pos fuel acc _ _
    simp only [List.flatten_nil, List.length_nil, Nat.add_zero, List.append_nil]
    exact packedRead_stop (by omega)
  | @cons c v cs' vs' h1 h2 ih =>
    intro data pos fuel acc hat hf
    have hclen := h1.length_pos
    simp only [List.flatten_cons] at hat hf ⊢
    obtain ⟨hatc, hatrest⟩ := hasAt_of_append hat
    have hlen : (c ++ cs'.flatten).length = c.length + cs'.flatten.length := by simp
    obtain ⟨k, rfl⟩ : ∃ k, fuel = k + 1 := ⟨fuel - 1, by omega⟩
    have hpos : pos < pos + (c ++ cs'.flatten).length := by omega
    simp only [packedRead, if_pos hpos, h1 data pos hatc,
      show ¬ pos + c.length ≤ pos by omega]
    have harr : pos + (c ++ cs'.flatten).length
        = pos + c.length + cs'.flatten.length := by omega
    rw [harr]
    rw [@ih data (pos + c.length) k (acc ++ [v]) hatrest (by omega)]
    simp

/-! ## Record encodings used to state the packed/unpacked claims -/

/-- A packed repeated field record: LengthDelimited tag, varint byte
length, then the value encodings back to back. -/
def packedEnc (no : Nat) (cs : List (List Nat)) : List Nat :=
  varintEnc (8 * no + 2) ++ varintEnc cs.flatten.length ++ cs.flatten

/-- The unpacked form: one tag + value record per element. -/
def unpackedEnc (no wt : Nat) (cs : List (List Nat)) : List Nat :=
  (cs.map fun c => varintEnc (8 * no + wt) ++ c).flatten

/-- One tagged scalar record processed by `readStep`: assigned when
singular, appended when repeated with a non-packed wire type. -/
theorem readStep_scalar_record {info : MessageInfo} {opts : BinaryReadOptions}
    {f : FieldInfo} {T : ScalarType} {L : Option LongType}
    {data : List Nat} {pos : Nat} {msg : Msg} {c : List Nat} {v : Val} {wt : Nat}
    (hkind : f.kind = .scalar T L ∨ (f.kind = .enum ∧ T = .INT32 ∧ L = none))
    (hlookup : fieldLookup info.fields f.no = some f)
    (hone : f.oneof = none)
    (htag : 8 * f.no + wt < 2 ^ 32) (hwt : wt < 8)
    (hat : HasAt data pos (varintEnc (8 * f.no + wt) ++ c))
    (hp : ScalarParses T L c v) :
    (f.rep.isOn = false →
      ReflectionBinaryReader.readStep info opts data msg pos
        = .ok (mset msg f.localName v,
            pos + (varintEnc (8 * f.no + wt) ++ c).length))
    ∧ (∀ arr, f.rep.isOn = true → wt ≠ 2 → mget msg f.localName = some (.vArr arr) →
      ReflectionBinaryReader.readStep info opts data msg pos
        = .ok (mset msg f.localName (.vArr (arr ++ [v])),
            pos + (varintEnc (8 * f.no + wt) ++ c).length)) := by
  obtain ⟨hattag, hatc⟩ := hasAt_of_append hat
  have htagread := readUint32_enc hattag htag
  have hdiv : (8 * f.no + wt) / 8 = f.no := by omega
  have hmod : (8 * f.no + wt) % 8 = wt := by omega
  have htgt : targetOf msg f = .ok (.plain msg) := by simp [targetOf, hone]
  have hsc := hp data (pos + (varintEnc (8 * f.no + wt)).length) hatc
  constructor
  · intro hrep
    have hks : kindStep info.typeName f opts data wt (.plain msg)
        (pos + (varintEnc (8 * f.no + wt)).length)
        = .ok (RTarget.set (.plain msg) f.localName v,
            pos + (varintEnc (8 * f.no + wt)).length + c.length) := by
      rw [kindStep_scalarish hkind]
      simp [scalarFieldStep, hrep, hsc]
    have := readStep_known htagread (by rw [hdiv]; exact hlookup) htgt (by rw [hmod]; exact hks)
    simpa [RTarget.commit, RTarget.set, List.length_append, Nat.add_assoc] using this
  · intro arr hrep hwt2 harr
    have hks : kindStep info.typeName f opts data wt (.plain msg)
        (pos + (varintEnc (8 * f.no + wt)).length)
        = .ok (RTarget.set (.plain msg) f.localName (.vArr (arr ++ [v])),
            pos + (varintEnc (8 * f.no + wt)).length + c.length) := by
      rw [kindStep_scalarish hkind]
      have hcond : ¬ (wt = 2 ∧ T ≠ .STRING ∧ T ≠ .BYTES) := by
        intro hc
        exact hwt2 hc.1
      simp [scalarFieldStep, hrep, RTarget.get, harr, hcond, hsc]
    have := readStep_known htagread (by rw [hdiv]; exact hlookup) htgt (by rw [hmod]; exact hks)
    simpa [RTarget.commit, RTarget.set, List.length_append, Nat.add_assoc] using this

/-- Reading a whole unpacked stream of tagged records appends the decoded
values in order. -/
theorem readLoop_unpacked {info : MessageInfo} {opts : BinaryReadOptions}
    {f : FieldInfo} {T : ScalarType} {L : Option LongType} {wt : Nat}
    (hkind : f.kind = .scalar T L ∨ (f.kind = .enum ∧ T = .INT32 ∧ L = none))
    (hlookup : fieldLookup info.fields f.no = some f)
    (hone : f.oneof = none)
    (hrep : f.rep.isOn = true)
    (htag : 8 * f.no + wt < 2 ^ 32) (hwt : wt < 8) (hwt2 : wt ≠ 2) :
    ∀ {cs : List (List Nat)} {vs : List Val}, List.Forall₂ (ScalarParses T L) cs vs →
    ∀ {data : List Nat} {pos fuel : Nat} {arr : List Val} {msg : Msg},
      HasAt data pos (unpackedEnc f.no wt cs) →
      (unpackedEnc f.no wt cs).length ≤ fuel →
      mget msg f.localName = some (.vArr arr) →
      ReflectionBinaryReader.readLoop info opts data
          (pos + (unpackedEnc f.no wt cs).length) fuel msg pos
        = .ok (mset msg f.localName (.vArr (arr ++ vs)),
            pos + (unpackedEnc f.no wt cs).length) := by
  intro cs vs hcv
  induction hcv with
  | nil =>
    intro data pos fuel arr msg _ _ harr
    simp only [unpackedEnc, List.map_nil, List.flatten_nil, List.length_nil,
      Nat.add_zero, List.append_nil]
    rw [readLoop_stop (by omega)]
    rw [mset_self msg f.localName _ harr]
  | @cons c v cs' vs' h1 h2 ih =>
    intro data pos fuel arr msg hat hf harr
    have hclen := h1.length_pos
    have htlen := varintEnc_length_pos (8 * f.no + wt)
    simp only [unpackedEnc, List.map_cons, List.flatten_cons] at hat hf ⊢
    obtain ⟨hatrec, hatrest⟩ := hasAt_of_append hat
    have hlen : ((varintEnc (8 * f.no + wt) ++ c) ++ (cs'.map
        fun c => varintEnc (8 * f.no + wt) ++ c).flatten).length
        = (varintEnc (8 * f.no + wt)).length + c.length
          + ((cs'.map fun c => varintEnc (8 * f.no + wt) ++ c).flatten).length := by
      simp only [List.length_append]
    have hstep := (@readStep_scalar_record info opts f T L data pos msg c v wt
      hkind hlookup hone htag hwt hatrec h1).2 arr hrep hwt2 harr
    have hreclen : (varintEnc (8 * f.no + wt) ++ c).length
        = (varintEnc (8 * f.no + wt)).length + c.length := by simp
    rw [readLoop_peel (by omega) hstep (by omega) (by omega)]
    have hrest := @ih data
      (pos + (varintEnc (8 * f.no + wt) ++ c).length) (fuel - 1)
      (arr ++ [v]) (mset msg f.localName (.vArr (arr ++ [v])))
      (by simpa only [unpackedEnc] using hatrest) (by simp only [unpackedEnc]; omega)
      (mget_mset_self _ _ _)
    simp only [unpackedEnc] at hrest
    have he : pos + ((varintEnc (8 * f.no + wt) ++ c)
          ++ (cs'.map fun c => varintEnc (8 * f.no + wt) ++ c).flatten).length
        = pos + (varintEnc (8 * f.no + wt) ++ c).length
          + ((cs'.map fun c => varintEnc (8 * f.no + wt) ++ c).flatten).length := by
      omega
    rw [he]
    rw [hrest]
    rw [mset_mset]
    simp

/-- A packed record processed by one `readStep`: appends all values in
one iteration. -/
theorem readStep_packed {info : MessageInfo} {opts : BinaryReadOptions}
    {f : FieldInfo} {T : ScalarType} {L : Option LongType}
    (hkind : f.kind = .scalar T L ∨ (f.kind = .enum ∧ T = .INT32 ∧ L = none))
    (hlookup : fieldLookup info.fields f.no = some f)
    (hone : f.oneof = none)
    (hrep : f.rep.isOn = true)
    (hT1 : T ≠ .STRING) (hT2 : T ≠ .BYTES)
    (htag : 8 * f.no + 2 < 2 ^ 32)
    {cs : List (List Nat)} {vs : List Val}
    (hcv : List.Forall₂ (ScalarParses T L) cs vs)
    {data : List Nat} {pos : Nat} {arr : List Val} {msg : Msg}
    (hat : HasAt data pos (packedEnc f.no cs))
    (hblen : cs.flatten.length < 2 ^ 32)
    (harr : mget msg f.localName = some (.vArr arr)) :
    ReflectionBinaryReader.readStep info opts data msg pos
      = .ok (mset msg f.localName (.vArr (arr ++ vs)),
          pos + (packedEnc f.no cs).length) := by
  rw [show packedEnc f.no cs = varintEnc (8 * f.no + 2)
    ++ (varintEnc cs.flatten.length ++ cs.flatten) from by simp [packedEnc]] at hat
  obtain ⟨hattag, hatrest⟩ := hasAt_of_append hat
  obtain ⟨hatlen, hatbody⟩ := hasAt_of_append hatrest
  have htagread := readUint32_enc hattag htag
  have hlenread := readUint32_enc hatlen hblen
  have hdiv : (8 * f.no + 2) / 8 = f.no := by omega
  have hmod : (8 * f.no + 2) % 8 = 2 := by omega
  have htgt : targetOf msg f = .ok (.plain msg) := by simp [targetOf, hone]
  have hpk := @packedRead_chunks T L cs vs hcv data
    (pos + (varintEnc (8 * f.no + 2)).length + (varintEnc cs.flatten.length).length)
    (pos + (varintEnc (8 * f.no + 2)).length + (varintEnc cs.flatten.length).length
      + cs.flatten.length)
    [] (by simpa [Nat.add_assoc] using hatbody) (by omega)
  have hks : kindStep info.typeName f opts data 2 (.plain msg)
      (pos + (varintEnc (8 * f.no + 2)).length)
      = .ok (RTarget.set (.plain msg) f.localName (.vArr (arr ++ vs)),
          pos + (varintEnc (8 * f.no + 2)).length + (varintEnc cs.flatten.length).length
            + cs.flatten.length) := by
    rw [kindStep_scalarish hkind]
    simp only [scalarFieldStep]
    rw [if_pos hrep]
    simp only [RTarget.get, harr]
    rw [if_pos (show (True ∧ T ≠ ScalarType.STRING ∧ T ≠ ScalarType.BYTES) from
      ⟨trivial, hT1, hT2⟩)]
    simp only [hlenread, hpk]
    simp
  have := readStep_known htagread (by rw [hdiv]; exact hlookup) htgt (by rw [hmod]; exact hks)
  rw [this]
  have hfin : pos + (varintEnc (8 * f.no + 2)).length + (varintEnc cs.flatten.length).length
      + cs.flatten.length = pos + (packedEnc f.no cs).length := by
    simp only [packedEnc, List.length_append]
    omega
  rw [hfin]
  simp [RTarget.commit, RTarget.set]

/-- The spec's scenario S3 byte image: packed `[1, 2, 3]` at field 4. -/
example : packedEnc 4 [[1], [2], [3]] = [0x22, 0x03, 0x01, 0x02, 0x03] := rfl

example : unpackedEnc 4 0 [[1], [2], [3]] = [0x20, 1, 0x20, 2, 0x20, 3] := rfl

/-! ## Claim C1 -/

/-- C1: for a repeated scalar or enum field whose scalar type is not
STRING or BYTES, reading the packed form (one LengthDelimited tag, a
varint byte length, the value encodings back to back) and reading the
unpacked form (one tag + value per element, any non-length-delimited
wire type) append the same decoded value sequence to the preinitialized
target array; and for a singular scalar/enum field a tag with any other
wire type reads exactly one value and assigns it to
`target[localName]`.  Value sequences are quantified as lists of wire
chunks each of which the scalar dispatch parses exactly. -/
theorem c1_packed_unpacked_read (info : MessageInfo) (opts : BinaryReadOptions)
    (f : FieldInfo) (T : ScalarType) (L : Option LongType) (msg : Msg)
    (arr : List Val) (cs : List (List Nat)) (vs : List Val) (wt : Nat)
    (hkind : f.kind = .scalar T L ∨ (f.kind = .enum ∧ T = .INT32 ∧ L = none))
    (hlookup : fieldLookup info.fields f.no = some f)
    (hone : f.oneof = none)
    (hrep : f.rep.isOn = true)
    (hT1 : T ≠ .STRING) (hT2 : T ≠ .BYTES)
    (harr : mget msg f.localName = some (.vArr arr))
    (hcv : List.Forall₂ (ScalarParses T L) cs vs)
    (htag : 8 * f.no + 7 < 2 ^ 32)
    (hblen : cs.flatten.length < 2 ^ 32)
    (hwt : wt < 8) (hwt2 : wt ≠ 2) :
    ReflectionBinaryReader.read info opts (packedEnc f.no cs) msg 0 none
        = .ok (mset msg f.localName (.vArr (arr ++ vs)), (packedEnc f.no cs).length)
    ∧ ReflectionBinaryReader.read info opts (unpackedEnc f.no wt cs) msg 0 none
        = .ok (mset msg f.localName (.vArr (arr ++ vs)), (unpackedEnc f.no wt cs).length)
    ∧ (∀ (c : List Nat) (v : Val) (msg2 : Msg) (g : FieldInfo),
        fieldLookup info.fields g.no = some g →
        (g.kind = .scalar T L ∨ (g.kind = .enum ∧ T = .INT32 ∧ L = none)) →
        g.oneof = none → g.rep.isOn = false →
        ScalarParses T L c v → 8 * g.no + wt < 2 ^ 32 →
        ReflectionBinaryReader.readStep info opts (varintEnc (8 * g.no + wt) ++ c) msg2 0
          = .ok (mset msg2 g.localName v, (varintEnc (8 * g.no + wt) ++ c).length)) := by
  refine ⟨?_, ?_, ?_⟩
  · show ReflectionBinaryReader.readLoop info opts (packedEnc f.no cs)
        (packedEnc f.no cs).length (packedEnc f.no cs).length msg 0
      = .ok (mset msg f.localName (.vArr (arr ++ vs)), (packedEnc f.no cs).length)
    have hstep := @readStep_packed info opts f T L hkind hlookup hone hrep hT1 hT2
      (by omega) cs vs hcv (packedEnc f.no cs) 0 arr msg
      (hasAt_self (packedEnc f.no cs)) hblen harr
    simp only [Nat.zero_add] at hstep
    have hlenpos : 0 < (packedEnc f.no cs).length := by
      have := varintEnc_length_pos (8 * f.no + 2)
      simp only [packedEnc, List.length_append]
      omega
    rw [readLoop_peel hlenpos hstep hlenpos hlenpos]
    exact readLoop_stop (by omega)
  · show ReflectionBinaryReader.readLoop info opts (unpackedEnc f.no wt cs)
        (unpackedEnc f.no wt cs).length (unpackedEnc f.no wt cs).length msg 0
      = .ok (mset msg f.localName (.vArr (arr ++ vs)), (unpackedEnc f.no wt cs).length)
    have := @readLoop_unpacked info opts f T L wt hkind hlookup hone hrep (by omega)
      hwt hwt2 cs vs hcv (unpackedEnc f.no wt cs) 0
      ((unpackedEnc f.no wt cs).length) arr msg
      (hasAt_self (unpackedEnc f.no wt cs)) le_rfl harr
    simpa using this
  · intro c v msg2 g hlookup2 hkind2 hone2 hrep2 hp htag2
    have := (@readStep_scalar_record info opts g T L
      (varintEnc (8 * g.no + wt) ++ c) 0 msg2 c v wt hkind2 hlookup2 hone2
      htag2 hwt (hasAt_self (varintEnc (8 * g.no + wt) ++ c)) hp).1 hrep2
    simpa using this

theorem c1_packed_unpacked_read_witness :
    ReflectionBinaryReader.read ⟨"M", [⟨4, "r", "r", .scalar .INT32 none, .packed, none⟩]⟩
        ⟨.uTrue⟩ (packedEnc 4 [[3], [150, 1]]) [("r", .vArr [])] 0 none
      = .ok ([("r", Val.vArr [Val.vInt 3, Val.vInt 150])],
          (packedEnc 4 [[3], [150, 1]]).length)
    ∧ ReflectionBinaryReader.read ⟨"M", [⟨4, "r", "r", .scalar .INT32 none, .packed, none⟩]⟩
        ⟨.uTrue⟩ (unpackedEnc 4 0 [[3], [150, 1]]) [("r", .vArr [])] 0 none
      = .ok ([("r", Val.vArr [Val.vInt 3, Val.vInt 150])],
          (unpackedEnc 4 0 [[3], [150, 1]]).length) := by
  have h := c1_packed_unpacked_read
    ⟨"M", [⟨4, "r", "r", .scalar .INT32 none, .packed, none⟩]⟩ ⟨.uTrue⟩
    ⟨4, "r", "r", .scalar .INT32 none, .packed, none⟩ .INT32 none
    [("r", .vArr [])] [] [[3], [150, 1]] [.vInt 3, .vInt 150] 0
    (Or.inl rfl) rfl rfl rfl (by decide) (by decide) rfl
    (List.Forall₂.cons (scalarParses_int32 3 (by decide) none)
      (List.Forall₂.cons (scalarParses_int32 150 (by decide) none) List.Forall₂.nil))
    (by decide) (by decide) (by decide) (by decide)
  exact ⟨h.1, h.2.1⟩

/-! ## Claim C2 -/

/-- C2: a singular message field reads a varint length and passes the
existing `target[localName]` (or nothing, when absent) to the nested
codec's `internalBinaryRead` as the merge target, storing its result; a
repeated message field always passes no target — a fresh nested message
— and appends the result; hence two wire occurrences of a singular
message field merge: the second nested read receives the first one's
result as its target. -/
theorem c2_message_merge (info : MessageInfo) (opts : BinaryReadOptions)
    (f : FieldInfo) (inner : InnerCodec) (data : List Nat)
    (hkind : f.kind = .message inner)
    (hlookup : fieldLookup info.fields f.no = some f)
    (hone : f.oneof = none) :
    (∀ (msg : Msg) (pos tagv p1 len p1' : Nat) (v : Val) (p2 : Nat),
      readUint32 data pos = .ok (tagv, p1) → tagv / 8 = f.no →
      f.rep.isOn = false →
      readUint32 data p1 = .ok (len, p1') →
      inner data p1' len opts (mget msg f.localName) = .ok (v, p2) →
      ReflectionBinaryReader.readStep info opts data msg pos
        = .ok (mset msg f.localName v, p2))
    ∧ (∀ (msg : Msg) (arr : List Val) (pos tagv p1 len p1' : Nat) (v : Val) (p2 : Nat),
      readUint32 data pos = .ok (tagv, p1) → tagv / 8 = f.no →
      f.rep.isOn = true →
      mget msg f.localName = some (.vArr arr) →
      readUint32 data p1 = .ok (len, p1') →
      inner data p1' len opts none = .ok (v, p2) →
      ReflectionBinaryReader.readStep info opts data msg pos
        = .ok (mset msg f.localName (.vArr (arr ++ [v])), p2))
    ∧ (∀ (msg : Msg) (pos tagv p1 len p1' : Nat) (v1 : Val) (q2 tagv2 q1 len2 q1' : Nat)
        (v2 : Val) (q3 fuel : Nat),
      f.rep.isOn = false →
      readUint32 data pos = .ok (tagv, p1) → tagv / 8 = f.no →
      readUint32 data p1 = .ok (len, p1') →
      inner data p1' len opts (mget msg f.localName) = .ok (v1, q2) →
      readUint32 data q2 = .ok (tagv2, q1) → tagv2 / 8 = f.no →
      readUint32 data q1 = .ok (len2, q1') →
      inner data q1' len2 opts (some v1) = .ok (v2, q3) →
      pos < q2 → q2 < q3 → 1 < fuel →
      ReflectionBinaryReader.readLoop info opts data q3 fuel msg pos
        = .ok (mset msg f.localName v2, q3)) := by
  have hstep_s : ∀ (msg : Msg) (pos tagv p1 len p1' : Nat) (v : Val) (p2 : Nat),
      readUint32 data pos = .ok (tagv, p1) → tagv / 8 = f.no → f.rep.isOn = false →
      readUint32 data p1 = .ok (len, p1') →
      inner data p1' len opts (mget msg f.localName) = .ok (v, p2) →
      ReflectionBinaryReader.readStep info opts data msg pos
        = .ok (mset msg f.localName v, p2) := by
    intro msg pos tagv p1 len p1' v p2 h1 h2 h3 h4 h5
    have htgt : targetOf msg f = .ok (.plain msg) := by simp [targetOf, hone]
    have hks : kindStep info.typeName f opts data (tagv % 8) (.plain msg) p1
        = .ok (RTarget.set (.plain msg) f.localName v, p2) := by
      simp [kindStep, hkind, h3, h4, RTarget.get, h5]
    have := readStep_known h1 (by rw [h2]; exact hlookup) htgt hks
    simpa [RTarget.commit, RTarget.set] using this
  refine ⟨hstep_s, ?_, ?_⟩
  · intro msg arr pos tagv p1 len p1' v p2 h1 h2 h3 harr h4 h5
    have htgt : targetOf msg f = .ok (.plain msg) := by simp [targetOf, hone]
    have hks : kindStep info.typeName f opts data (tagv % 8) (.plain msg) p1
        = .ok (RTarget.set (.plain msg) f.localName (.vArr (arr ++ [v])), p2) := by
      simp [kindStep, hkind, h3, RTarget.get, harr, h4, h5]
    have := readStep_known h1 (by rw [h2]; exact hlookup) htgt hks
    simpa [RTarget.commit, RTarget.set] using this
  · intro msg pos tagv p1 len p1' v1 q2 tagv2 q1 len2 q1' v2 q3 fuel hrep
      h1 h2 h3 h4 h5 h6 h7 h8 hlt1 hlt2 hfuel
    have s1 := hstep_s msg pos tagv p1 len p1' v1 q2 h1 h2 hrep h3 h4
    have s2 := hstep_s (mset msg f.localName v1) q2 tagv2 q1 len2 q1' v2 q3 h5 h6 hrep h7
      (by rw [mget_mset_self]; exact h8)
    rw [readLoop_peel (by omega) s1 (by omega) (by omega)]
    rw [readLoop_peel (by omega) s2 (by omega) (by omega)]
    rw [mset_mset]
    exact readLoop_stop (by omega)

theorem c2_message_merge_witness :
    ReflectionBinaryReader.readStep
        ⟨"M", [⟨1, "m", "m", .message (fun _ pos len _ tgt =>
            .ok (Val.vMsg [("got", tgt.getD (Val.vInt 0))], pos + len)), .no, none⟩]⟩
        ⟨.uTrue⟩ [0x0a, 0x00] [] 0
      = .ok ([("m", Val.vMsg [("got", Val.vInt 0)])], 2) := by
  have h := (c2_message_merge
    ⟨"M", [⟨1, "m", "m", .message (fun _ pos len _ tgt =>
        .ok (Val.vMsg [("got", tgt.getD (Val.vInt 0))], pos + len)), .no, none⟩]⟩
    ⟨.uTrue⟩
    ⟨1, "m", "m", .message (fun _ pos len _ tgt =>
        .ok (Val.vMsg [("got", tgt.getD (Val.vInt 0))], pos + len)), .no, none⟩
    (fun _ pos len _ tgt => .ok (Val.vMsg [("got", tgt.getD (Val.vInt 0))], pos + len))
    [0x0a, 0x00] rfl rfl rfl).1 [] 0 10 1 0 2 (Val.vMsg [("got", Val.vInt 0)]) 2
    rfl rfl rfl rfl rfl
  exact h

/-! ## Claim C3 -/

/-- One tagged scalar record of a oneof member: the group record is
replaced (or updated) so it carries `oneofKind = localName` and exactly
that member's value. -/
theorem readStep_oneof_scalar {info : MessageInfo} {opts : BinaryReadOptions}
    {g : String} {f : FieldInfo} {T : ScalarType} {L : Option LongType}
    {msg : Msg} {k : String} {mem : Msg} {data : List Nat} {pos wt : Nat}
    {c : List Nat} {v : Val}
    (hkind : f.kind = .scalar T L ∨ (f.kind = .enum ∧ T = .INT32 ∧ L = none))
    (hlookup : fieldLookup info.fields f.no = some f)
    (hone : f.oneof = some g) (hrep : f.rep.isOn = false)
    (htag : 8 * f.no + wt < 2 ^ 32) (hwt : wt < 8)
    (hat : HasAt data pos (varintEnc (8 * f.no + wt) ++ c))
    (hp : ScalarParses T L c v)
    (hg : mget msg g = some (.vOneof k mem))
    (hwf : mem = [] ∨ ∃ old, mem = [(k, old)]) :
    ReflectionBinaryReader.readStep info opts data msg pos
      = .ok (mset msg g (.vOneof f.localName [(f.localName, v)]),
          pos + (varintEnc (8 * f.no + wt) ++ c).length) := by
  obtain ⟨hattag, hatc⟩ := hasAt_of_append hat
  have htagread := readUint32_enc hattag htag
  have hdiv : (8 * f.no + wt) / 8 = f.no := by omega
  have hmod : (8 * f.no + wt) % 8 = wt := by omega
  have hsc := hp data (pos + (varintEnc (8 * f.no + wt)).length) hatc
  by_cases hk : k = f.localName
  · subst hk
    have htgt : targetOf msg f = .ok (.inOneof g f.localName mem) := by
      simp [targetOf, hone, hg]
    have hks : kindStep info.typeName f opts data wt (.inOneof g f.localName mem)
        (pos + (varintEnc (8 * f.no + wt)).length)
        = .ok (RTarget.set (.inOneof g f.localName mem) f.localName v,
            pos + (varintEnc (8 * f.no + wt)).length + c.length) := by
      rw [kindStep_scalarish hkind]
      simp [scalarFieldStep, hrep, hsc]
    have := readStep_known htagread (by rw [hdiv]; exact hlookup) htgt
      (by rw [hmod]; exact hks)
    rw [this]
    have hmem : mset mem f.localName v = [(f.localName, v)] := by
      rcases hwf with rfl | ⟨old, rfl⟩ <;> simp [mset]
    simp [RTarget.commit, RTarget.set, hmem, List.length_append, Nat.add_assoc]
  · have htgt : targetOf msg f = .ok (.inOneof g f.localName []) := by
      simp [targetOf, hone, hg, hk]
    have hks : kindStep info.typeName f opts data wt (.inOneof g f.localName [])
        (pos + (varintEnc (8 * f.no + wt)).length)
        = .ok (RTarget.set (.inOneof g f.localName []) f.localName v,
            pos + (varintEnc (8 * f.no + wt)).length + c.length) := by
      rw [kindStep_scalarish hkind]
      simp [scalarFieldStep, hrep, hsc]
    have := readStep_known htagread (by rw [hdiv]; exact hlookup) htgt
      (by rw [hmod]; exact hks)
    rw [this]
    simp [RTarget.commit, RTarget.set, mset, List.length_append, Nat.add_assoc]

/-- One encoded record of a singular oneof member `f` parses to value `v`:
scalar and enum members parse their chunk through the scalar dispatch; a
message member's chunk is a varint length followed by the delimited body
handed to the nested codec (`internalBinaryRead`) with merge target `prev`
(the member value the routed group record currently holds: `none` whenever
the group was replaced by a fresh record).  A map member cannot occur in a
oneof. -/
def OneofMemberParses (f : FieldInfo) (opts : BinaryReadOptions)
    (c : List Nat) (prev : Option Val) (v : Val) : Prop :=
  match f.kind with
  | .scalar T L => ScalarParses T L c v
  | .enum => ScalarParses .INT32 none c v
  | .message inner =>
    ∀ data pos, HasAt data pos c →
      ∃ blen p1, readUint32 data pos = .ok (blen, p1)
        ∧ inner data p1 blen opts prev = .ok (v, pos + c.length)
  | .map _ _ => False

/-- The generalisation of `readStep_oneof_scalar` to every singular member
kind of a oneof group: scalar, enum, and message.  The merge target a
message member's codec receives is the routed group's current member value
(`none` when another member was selected, because the group record is
replaced by a fresh one first). -/
theorem readStep_oneof_member {info : MessageInfo} {opts : BinaryReadOptions}
    {g : String} {f : FieldInfo} {msg : Msg} {k : String} {mem : Msg}
    {data : List Nat} {pos wt : Nat} {c : List Nat} {v : Val}
    (hlookup : fieldLookup info.fields f.no = some f)
    (hone : f.oneof = some g) (hrep : f.rep.isOn = false)
    (htag : 8 * f.no + wt < 2 ^ 32) (hwt : wt < 8)
    (hat : HasAt data pos (varintEnc (8 * f.no + wt) ++ c))
    (hp : OneofMemberParses f opts c
      (if k = f.localName then mget mem f.localName else none) v)
    (hg : mget msg g = some (.vOneof k mem))
    (hwf : mem = [] ∨ ∃ old, mem = [(k, old)]) :
    ReflectionBinaryReader.readStep info opts data msg pos
      = .ok (mset msg g (.vOneof f.localName [(f.localName, v)]),
          pos + (varintEnc (8 * f.no + wt) ++ c).length) := by
  cases hkd : f.kind with
  | scalar T L =>
    have hp' : ScalarParses T L c v := by
      unfold OneofMemberParses at hp; rw [hkd] at hp; exact hp
    exact readStep_oneof_scalar (Or.inl hkd) hlookup hone hrep htag hwt hat hp' hg hwf
  | enum =>
    have hp' : ScalarParses .INT32 none c v := by
      unfold OneofMemberParses at hp; rw [hkd] at hp; exact hp
    exact readStep_oneof_scalar (Or.inr ⟨hkd, rfl, rfl⟩) hlookup hone hrep htag hwt
      hat hp' hg hwf
  | map K V =>
    have hfalse : False := by
      unfold OneofMemberParses at hp; rw [hkd] at hp; exact hp
    exact hfalse.elim
  | message inner =>
    have hp' : ∀ d p, HasAt d p c →
        ∃ blen p1, readUint32 d p = .ok (blen, p1)
          ∧ inner d p1 blen opts
              (if k = f.localName then mget mem f.localName else none)
            = .ok (v, p + c.length) := by
      unfold OneofMemberParses at hp; rw [hkd] at hp; exact hp
    obtain ⟨hattag, hatc⟩ := hasAt_of_append hat
    have htagread := readUint32_enc hattag htag
    have hdiv : (8 * f.no + wt) / 8 = f.no := by omega
    have hmod : (8 * f.no + wt) % 8 = wt := by omega
    obtain ⟨blen, p1, hru, hinner⟩ :=
      hp' data (pos + (varintEnc (8 * f.no + wt)).length) hatc
    by_cases hkk : k = f.localName
    · rw [if_pos hkk] at hinner
      subst hkk
      have htgt : targetOf msg f = .ok (.inOneof g f.localName mem) := by
        simp [targetOf, hone, hg]
      have hks : kindStep info.typeName f opts data wt (.inOneof g f.localName mem)
          (pos + (varintEnc (8 * f.no + wt)).length)
          = .ok (RTarget.set (.inOneof g f.localName mem) f.localName v,
              pos + (varintEnc (8 * f.no + wt)).length + c.length) := by
        simp [kindStep, hkd, hrep, hru, RTarget.get, hinner]
      have := readStep_known htagread (by rw [hdiv]; exact hlookup) htgt
        (by rw [hmod]; exact hks)
      rw [this]
      have hmem : mset mem f.localName v = [(f.localName, v)] := by
        rcases hwf with rfl | ⟨old, rfl⟩ <;> simp [mset]
      simp [RTarget.commit, RTarget.set, hmem, List.length_append, Nat.add_assoc]
    · rw [if_neg hkk] at hinner
      have htgt : targetOf msg f = .ok (.inOneof g f.localName []) := by
        simp [targetOf, hone, hg, hkk]
      have hks : kindStep info.typeName f opts data wt (.inOneof g f.localName [])
          (pos + (varintEnc (8 * f.no + wt)).length)
          = .ok (RTarget.set (.inOneof g f.localName []) f.localName v,
              pos + (varintEnc (8 * f.no + wt)).length + c.length) := by
        simp [kindStep, hkd, hrep, hru, RTarget.get, mget, hinner]
      have := readStep_known htagread (by rw [hdiv]; exact hlookup) htgt
        (by rw [hmod]; exact hks)
      rw [this]
      simp [RTarget.commit, RTarget.set, mset, List.length_append, Nat.add_assoc]

/-- C3: after the reader processes a tag of a field in oneof group `G`,
`target[G]` is a record with `oneofKind` equal to that field's local
name holding only that member's value; decoding a stream that sets
member A then member B yields the record for B with no trace of A, and
the reverse order yields A (the second conjunct, quantified over both
fields symmetrically, covers both orders). -/
theorem c3_oneof_exclusion (info : MessageInfo) (opts : BinaryReadOptions) (g : String) :
    (∀ (f : FieldInfo) (msg : Msg)
        (k : String) (mem : Msg) (data : List Nat) (pos wt : Nat) (c : List Nat) (v : Val),
      fieldLookup info.fields f.no = some f →
      f.oneof = some g → f.rep.isOn = false →
      8 * f.no + wt < 2 ^ 32 → wt < 8 →
      HasAt data pos (varintEnc (8 * f.no + wt) ++ c) →
      OneofMemberParses f opts c
        (if k = f.localName then mget mem f.localName else none) v →
      mget msg g = some (.vOneof k mem) →
      (mem = [] ∨ ∃ old, mem = [(k, old)]) →
      ReflectionBinaryReader.readStep info opts data msg pos
        = .ok (mset msg g (.vOneof f.localName [(f.localName, v)]),
            pos + (varintEnc (8 * f.no + wt) ++ c).length))
    ∧ (∀ (f1 f2 : FieldInfo)
        (msg : Msg) (k : String) (mem : Msg) (wt1 wt2 : Nat)
        (c1 c2 : List Nat) (v1 v2 : Val),
      fieldLookup info.fields f1.no = some f1 →
      fieldLookup info.fields f2.no = some f2 →
      f1.oneof = some g → f2.oneof = some g →
      f1.rep.isOn = false → f2.rep.isOn = false →
      8 * f1.no + wt1 < 2 ^ 32 → wt1 < 8 →
      8 * f2.no + wt2 < 2 ^ 32 → wt2 < 8 →
      OneofMemberParses f1 opts c1
        (if k = f1.localName then mget mem f1.localName else none) v1 →
      OneofMemberParses f2 opts c2
        (if f1.localName = f2.localName then some v1 else none) v2 →
      mget msg g = some (.vOneof k mem) →
      (mem = [] ∨ ∃ old, mem = [(k, old)]) →
      ReflectionBinaryReader.read info opts
          ((varintEnc (8 * f1.no + wt1) ++ c1) ++ (varintEnc (8 * f2.no + wt2) ++ c2))
          msg 0 none
        = .ok (mset msg g (.vOneof f2.localName [(f2.localName, v2)]),
            ((varintEnc (8 * f1.no + wt1) ++ c1)
              ++ (varintEnc (8 * f2.no + wt2) ++ c2)).length)) := by
  constructor
  · intro f msg k mem data pos wt c v hlookup hone hrep htag hwt hat hp hg hwf
    exact readStep_oneof_member hlookup hone hrep htag hwt hat hp hg hwf
  · intro f1 f2 msg k mem wt1 wt2 c1 c2 v1 v2 hlookup1
      hlookup2 hone1 hone2 hrep1 hrep2 htag1 hwt1 htag2 hwt2 hp1 hp2 hg hwf
    have hp2' : OneofMemberParses f2 opts c2
        (if f1.localName = f2.localName then mget [(f1.localName, v1)] f2.localName
         else none) v2 := by
      by_cases heq : f1.localName = f2.localName
      · rw [if_pos heq] at hp2 ⊢
        rw [show mget [(f1.localName, v1)] f2.localName = some v1 from by
          simp [mget, heq]]
        exact hp2
      · rw [if_neg heq] at hp2 ⊢
        exact hp2
    have hlen1 : 0 < (varintEnc (8 * f1.no + wt1) ++ c1).length := by
      have := varintEnc_length_pos (8 * f1.no + wt1)
      simp only [List.length_append]
      omega
    have hlen2 : 0 < (varintEnc (8 * f2.no + wt2) ++ c2).length := by
      have := varintEnc_length_pos (8 * f2.no + wt2)
      simp only [List.length_append]
      omega
    have htotal : ((varintEnc (8 * f1.no + wt1) ++ c1)
        ++ (varintEnc (8 * f2.no + wt2) ++ c2)).length
        = (varintEnc (8 * f1.no + wt1) ++ c1).length
          + (varintEnc (8 * f2.no + wt2) ++ c2).length := List.length_append _ _
    obtain ⟨hat1, hat2⟩ := hasAt_of_append
      (hasAt_self ((varintEnc (8 * f1.no + wt1) ++ c1)
        ++ (varintEnc (8 * f2.no + wt2) ++ c2)))
    have s1 := @readStep_oneof_member info opts g f1 msg k mem
      ((varintEnc (8 * f1.no + wt1) ++ c1) ++ (varintEnc (8 * f2.no + wt2) ++ c2))
      0 wt1 c1 v1 hlookup1 hone1 hrep1 htag1 hwt1 hat1 hp1 hg hwf
    have s2 := @readStep_oneof_member info opts g f2
      (mset msg g (.vOneof f1.localName [(f1.localName, v1)])) f1.localName
      [(f1.localName, v1)]
      ((varintEnc (8 * f1.no + wt1) ++ c1) ++ (varintEnc (8 * f2.no + wt2) ++ c2))
      (0 + (varintEnc (8 * f1.no + wt1) ++ c1).length) wt2 c2 v2 hlookup2
      hone2 hrep2 htag2 hwt2 hat2 hp2' (mget_mset_self _ _ _)
      (Or.inr ⟨v1, rfl⟩)
    have ht1 := varintEnc_length_pos (8 * f1.no + wt1)
    have ht2 := varintEnc_length_pos (8 * f2.no + wt2)
    have hsplit1 : (varintEnc (8 * f1.no + wt1) ++ c1).length
        = (varintEnc (8 * f1.no + wt1)).length + c1.length := List.length_append _ _
    have hsplit2 : (varintEnc (8 * f2.no + wt2) ++ c2).length
        = (varintEnc (8 * f2.no + wt2)).length + c2.length := List.length_append _ _
    rw [show ReflectionBinaryReader.read info opts
        ((varintEnc (8 * f1.no + wt1) ++ c1) ++ (varintEnc (8 * f2.no + wt2) ++ c2)) msg 0 none
      = ReflectionBinaryReader.readLoop info opts
          ((varintEnc (8 * f1.no + wt1) ++ c1) ++ (varintEnc (8 * f2.no + wt2) ++ c2))
          ((varintEnc (8 * f1.no + wt1) ++ c1) ++ (varintEnc (8 * f2.no + wt2) ++ c2)).length
          ((varintEnc (8 * f1.no + wt1) ++ c1) ++ (varintEnc (8 * f2.no + wt2) ++ c2)).length
          msg 0 from rfl]
    rw [readLoop_peel (by omega) s1 (by omega) (by omega)]
    rw [readLoop_peel (by omega) s2 (by omega) (by omega)]
    rw [readLoop_stop (by omega)]
    rw [mset_mset]
    rw [show 0 + (varintEnc (8 * f1.no + wt1) ++ c1).length
        + (varintEnc (8 * f2.no + wt2) ++ c2).length
        = ((varintEnc (8 * f1.no + wt1) ++ c1)
            ++ (varintEnc (8 * f2.no + wt2) ++ c2)).length from by omega]

theorem c3_oneof_exclusion_witness :
    ReflectionBinaryReader.read ⟨"M",
        [⟨1, "a", "a", .scalar .INT32 none, .no, some "ch"⟩,
         ⟨2, "b", "b", .scalar .INT32 none, .no, some "ch"⟩]⟩ ⟨.uTrue⟩
        ((varintEnc (8 * 1 + 0) ++ [5]) ++ (varintEnc (8 * 2 + 0) ++ [7]))
        [("ch", .vOneof "" [])] 0 none
      = .ok ([("ch", Val.vOneof "b" [("b", Val.vInt 7)])],
          ((varintEnc (8 * 1 + 0) ++ [5]) ++ (varintEnc (8 * 2 + 0) ++ [7])).length)
    ∧ ReflectionBinaryReader.readStep ⟨"M2", [⟨1, "a", "a",
          .message (fun _ p len _ tgt => .ok (.vMsg [("got", tgt.getD (.vInt 0))], p + len)),
          .no, some "ch"⟩]⟩ ⟨.uTrue⟩ [10, 0] [("ch", .vOneof "" [])] 0
      = .ok ([("ch", Val.vOneof "a" [("a", Val.vMsg [("got", Val.vInt 0)])])], 2) := by
  constructor
  · have h := (c3_oneof_exclusion ⟨"M",
        [⟨1, "a", "a", .scalar .INT32 none, .no, some "ch"⟩,
         ⟨2, "b", "b", .scalar .INT32 none, .no, some "ch"⟩]⟩ ⟨.uTrue⟩ "ch").2
      ⟨1, "a", "a", .scalar .INT32 none, .no, some "ch"⟩
      ⟨2, "b", "b", .scalar .INT32 none, .no, some "ch"⟩
      [("ch", .vOneof "" [])] "" [] 0 0 [5] [7]
      (.vInt 5) (.vInt 7)
      rfl rfl rfl rfl rfl rfl
      (by decide) (by decide) (by decide) (by decide)
      (scalarParses_int32 5 (by decide) none) (scalarParses_int32 7 (by decide) none)
      rfl (Or.inl rfl)
    exact h
  · have h := (c3_oneof_exclusion ⟨"M2", [⟨1, "a", "a",
        .message (fun _ p len _ tgt => .ok (.vMsg [("got", tgt.getD (.vInt 0))], p + len)),
        .no, some "ch"⟩]⟩ ⟨.uTrue⟩ "ch").1
      ⟨1, "a", "a",
        .message (fun _ p len _ tgt => .ok (.vMsg [("got", tgt.getD (.vInt 0))], p + len)),
        .no, some "ch"⟩
      [("ch", .vOneof "" [])] "" [] [10, 0] 0 2 [0] (.vMsg [("got", .vInt 0)])
      rfl rfl rfl (by decide) (by decide) (hasAt_self [10, 0])
      (fun d p hat0 => ⟨0, p + 1, @readUint32_enc d p 0 hat0 (by norm_num), rfl⟩)
      rfl (Or.inl rfl)
    exact h

/-! ## Claim C6 -/

theorem skipVarintScan_pos_lt {data : List Nat} : ∀ {fuel pos p' : Nat},
    skipVarintScan data fuel pos = .ok p' → pos < p' := by
  intro fuel
  induction fuel with
  | zero => intro pos p' h; simp [skipVarintScan] at h
  | succ n ih =>
    intro pos p' h
    simp only [skipVarintScan] at h
    cases hb : data[pos]? with
    | none => rw [hb] at h; simp at h
    | some b =>
      rw [hb] at h
      by_cases hlt : b < 0x80
      · simp [hlt] at h; omega
      · simp [hlt] at h
        have := ih h
        omega

theorem skipWire_pos_lt {data : List Nat} {pos wt : Nat} {d : List Nat} {p' : Nat}
    (h : skipWire data pos wt = .ok (d, p')) : pos < p' := by
  unfold skipWire at h
  split at h
  · cases hs : skipVarintScan data (data.length + 1) pos with
    | error e => rw [hs] at h; simp at h
    | ok q =>
      rw [hs] at h
      simp only [Except.ok.injEq, Prod.mk.injEq] at h
      have := skipVarintScan_pos_lt hs
      omega
  · by_cases hb : pos + 8 ≤ data.length
    · rw [if_pos hb] at h
      simp only [Except.ok.injEq, Prod.mk.injEq] at h
      omega
    · rw [if_neg hb] at h
      exact absurd h (by simp)
  · by_cases hb : pos + 4 ≤ data.length
    · rw [if_pos hb] at h
      simp only [Except.ok.injEq, Prod.mk.injEq] at h
      omega
    · rw [if_neg hb] at h
      exact absurd h (by simp)
  · cases hu : readUint32 data pos with
    | error e => rw [hu] at h; simp at h
    | ok r =>
      obtain ⟨len, q⟩ := r
      rw [hu] at h
      replace h : (if q + len ≤ data.length
          then Except.ok (sliceBytes data pos (q + len), q + len)
          else Except.error Err.truncated) = Except.ok (d, p') := h
      have hadv := readUint32_pos_lt hu
      by_cases hb : q + len ≤ data.length
      · rw [if_pos hb] at h
        simp only [Except.ok.injEq, Prod.mk.injEq] at h
        omega
      · rw [if_neg hb] at h
        exact absurd h (by simp)
  · simp at h

/-- C6: a tag whose field number has no descriptor consults
`readUnknownField`: "throw" raises UnknownField carrying the type name,
field number and wire type; `false` skips the value and does nothing
else; `true` skips and records through the default handler; any other
callable is invoked with the type name, target, field number, wire type
and the skipped raw bytes; in every non-throw case the loop then
continues at the next tag. -/
theorem c6_unknown_field (info : MessageInfo) (data : List Nat) (msg : Msg)
    (pos tagv p1 : Nat) (d : List Nat) (p2 : Nat)
    (htagread : readUint32 data pos = .ok (tagv, p1))
    (hnone : fieldLookup info.fields (tagv / 8) = none)
    (hskip : skipWire data p1 (tagv % 8) = .ok (d, p2)) :
    (ReflectionBinaryReader.readStep info ⟨.uThrow⟩ data msg pos
        = .error (.unknownField info.typeName (tagv / 8) (tagv % 8)))
    ∧ (ReflectionBinaryReader.readStep info ⟨.uFalse⟩ data msg pos = .ok (msg, p2))
    ∧ (ReflectionBinaryReader.readStep info ⟨.uTrue⟩ data msg pos
        = .ok (onReadUnknown msg (tagv / 8) (tagv % 8) d, p2))
    ∧ (∀ h, ReflectionBinaryReader.readStep info ⟨.uCallable h⟩ data msg pos
        = .ok (h info.typeName msg (tagv / 8) (tagv % 8) d, p2))
    ∧ (∀ (u : URF) (endPos fuel : Nat), u ≠ .uThrow → pos < endPos → 0 < fuel →
        ∃ m', ReflectionBinaryReader.readStep info ⟨u⟩ data msg pos = .ok (m', p2)
          ∧ ReflectionBinaryReader.readLoop info ⟨u⟩ data endPos fuel msg pos
            = ReflectionBinaryReader.readLoop info ⟨u⟩ data endPos (fuel - 1) m' p2) := by
  have hstep : ∀ u : URF, u ≠ .uThrow →
      ReflectionBinaryReader.readStep info ⟨u⟩ data msg pos
        = .ok ((match u with
            | .uFalse => msg
            | .uTrue => onReadUnknown msg (tagv / 8) (tagv % 8) d
            | .uCallable h => h info.typeName msg (tagv / 8) (tagv % 8) d
            | .uThrow => msg), p2) := by
    intro u hu
    cases u with
    | uThrow => exact absurd rfl hu
    | uFalse => simp [ReflectionBinaryReader.readStep, htagread, hnone, hskip]
    | uTrue => simp [ReflectionBinaryReader.readStep, htagread, hnone, hskip]
    | uCallable h => simp [ReflectionBinaryReader.readStep, htagread, hnone, hskip]
  refine ⟨?_, ?_, ?_, ?_, ?_⟩
  · simp [ReflectionBinaryReader.readStep, htagread, hnone]
  · exact hstep .uFalse (by intro hc; cases hc)
  · exact hstep .uTrue (by intro hc; cases hc)
  · intro h
    exact hstep (.uCallable h) (by intro hc; cases hc)
  · intro u endPos fuel hu hpos hfuel
    have hs := hstep u hu
    have hp2 : pos < p2 := by
      have h1 := readUint32_pos_lt htagread
      have h2 := skipWire_pos_lt hskip
      omega
    exact ⟨_, hs, readLoop_peel hpos hs hp2 hfuel⟩

theorem c6_unknown_field_witness :
    (ReflectionBinaryReader.readStep (⟨"M", []⟩ : MessageInfo) ⟨.uThrow⟩
        [0x08, 0x05] [] 0 = .error (.unknownField "M" 1 0))
    ∧ (ReflectionBinaryReader.readStep (⟨"M", []⟩ : MessageInfo) ⟨.uFalse⟩
        [0x08, 0x05] [] 0 = .ok ([], 2))
    ∧ (ReflectionBinaryReader.readStep (⟨"M", []⟩ : MessageInfo) ⟨.uTrue⟩
        [0x08, 0x05] [] 0 = .ok (onReadUnknown [] 1 0 [5], 2)) := by
  have h := c6_unknown_field ⟨"M", []⟩ [0x08, 0x05] [] 0 8 1 [5] 2 rfl rfl rfl
  exact ⟨h.1, h.2.1, h.2.2.1⟩

/-! ## Claim C7 -/

/-- Object-key compatibility: the value is a JS string or number. -/
def isStrOrNum : Val → Bool
  | .vStr _ => true
  | .vInt _ => true
  | _ => false

theorem mapEntryLoop_stop {tn fn K V data opts fuel e key? val? pos}
    (h : ¬ pos < e) :
    mapEntryLoop tn fn K V data opts fuel e key? val? pos = .ok (key?, val?, pos) := by
  cases fuel <;> simp [mapEntryLoop, h]

/-- The non-BOOL key read (`scalar` with LongType STRING) yields a string
or a number for every scalar type legal as a proto3 map key. -/
theorem scalar_key_strOrNum {data : List Nat} {pos : Nat} {K : ScalarType}
    {v : Val} {p : Nat}
    (hK1 : K ≠ .FLOAT) (hK2 : K ≠ .DOUBLE) (hK3 : K ≠ .BYTES) (hK4 : K ≠ .BOOL)
    (h : ReflectionBinaryReader.scalar data pos K (some .STRING) = .ok (v, p)) :
    isStrOrNum v = true := by
  cases K <;> simp only [ReflectionBinaryReader.scalar] at h <;>
    try (obtain ⟨a, hx, hb⟩ := exceptMap_ok h;
         have hv := congrArg Prod.fst hb)
  case FLOAT => exact absurd rfl hK1
  case DOUBLE => exact absurd rfl hK2
  case BYTES => exact absurd rfl hK3
  case BOOL => exact absurd rfl hK4
  case INT32 => simp at hv; simp [hv, isStrOrNum]
  case STRING => simp at hv; simp [hv, isStrOrNum]
  case INT64 => simp at hv; simp [hv, reflectionLongConvert, isStrOrNum]
  case UINT64 => simp at hv; simp [hv, reflectionLongConvert, isStrOrNum]
  case FIXED64 => simp at hv; simp [hv, reflectionLongConvert, isStrOrNum]
  case FIXED32 => simp at hv; simp [hv, isStrOrNum]
  case UINT32 => simp at hv; simp [hv, isStrOrNum]
  case SFIXED32 => simp at hv; simp [hv, isStrOrNum]
  case SFIXED64 => simp at hv; simp [hv, reflectionLongConvert, isStrOrNum]
  case SINT32 => simp at hv; simp [hv, isStrOrNum]
  case SINT64 => simp at hv; simp [hv, reflectionLongConvert, isStrOrNum]

/-- Along the map-entry loop, the key accumulator only ever holds strings
or numbers (for scalar types legal as map keys). -/
theorem mapEntryLoop_key_kind {tn fn : String} {K : ScalarType} {V : MapV}
    {data : List Nat} {opts : BinaryReadOptions}
    (hK1 : K ≠ .FLOAT) (hK2 : K ≠ .DOUBLE) (hK3 : K ≠ .BYTES) :
    ∀ {fuel pos₀ e : Nat} {key? val? : Option Val} {kr vr : Option Val} {p : Nat},
    (∀ kv, key? = some kv → isStrOrNum kv = true) →
    mapEntryLoop tn fn K V data opts fuel e key? val? pos₀ = .ok (kr, vr, p) →
    ∀ kv, kr = some kv → isStrOrNum kv = true := by
  intro fuel
  induction fuel with
  | zero =>
    intro pos₀ e key? val? kr vr p hinv h kv hkr
    simp only [mapEntryLoop] at h
    split at h
    · simp at h
    · simp only [Except.ok.injEq, Prod.mk.injEq] at h
      obtain ⟨h1, h2, h3⟩ := h
      rw [← h1] at hkr
      exact hinv kv hkr
  | succ n ih =>
    intro pos₀ e key? val? kr vr p hinv h kv hkr
    simp only [mapEntryLoop] at h
    split at h
    · split at h
      · simp at h
      next tagv p1 hu =>
        by_cases h1 : tagv / 8 = 1
        · rw [if_pos h1] at h
          by_cases hb : K = .BOOL
          · rw [if_pos hb] at h
            split at h
            · simp at h
            next b p2 hbr =>
              split at h
              · simp at h
              · exact ih (fun kv2 hkv2 => by cases hkv2; simp [isStrOrNum]) h kv hkr
          · rw [if_neg hb] at h
            split at h
            · simp at h
            next sv p2 hsr =>
              split at h
              · simp at h
              · exact ih (fun kv2 hkv2 => by
                  cases hkv2
                  exact scalar_key_strOrNum hK1 hK2 hK3 hb hsr) h kv hkr
        · rw [if_neg h1] at h
          by_cases h2 : tagv / 8 = 2
          · rw [if_pos h2] at h
            cases V with
            | scalar T L =>
              replace h : (match ReflectionBinaryReader.scalar data p1 T L with
                  | .error err => (.error err : Except Err (Option Val × Option Val × Nat))
                  | .ok (v, p2) =>
                    if p2 ≤ pos₀ then .error .stuck
                    else mapEntryLoop tn fn K (.scalar T L) data opts n e key? (some v) p2)
                  = .ok (kr, vr, p) := h
              split at h
              · simp at h
              next sv p2 hsr =>
                split at h
                · simp at h
                · exact ih hinv h kv hkr
            | enum =>
              replace h : (match readInt32 data p1 with
                  | .error err => (.error err : Except Err (Option Val × Option Val × Nat))
                  | .ok (nv, p2) =>
                    if p2 ≤ pos₀ then .error .stuck
                    else mapEntryLoop tn fn K .enum data opts n e key? (some (.vInt nv)) p2)
                  = .ok (kr, vr, p) := h
              split at h
              · simp at h
              next nv p2 hnr =>
                split at h
                · simp at h
                · exact ih hinv h kv hkr
            | message inner create =>
              replace h : (match readUint32 data p1 with
                  | .error err => (.error err : Except Err (Option Val × Option Val × Nat))
                  | .ok (len2, p2) =>
                    match inner data p2 len2 opts none with
                    | .error err => .error err
                    | .ok (m, p3) =>
                      if p3 ≤ pos₀ then .error .stuck
                      else mapEntryLoop tn fn K (.message inner create) data opts n e key?
                        (some m) p3)
                  = .ok (kr, vr, p) := h
              split at h
              · simp at h
              next len2 p2 hlr =>
                split at h
                · simp at h
                next mv p3 hir =>
                  split at h
                  · simp at h
                  · exact ih hinv h kv hkr
          · rw [if_neg h2] at h
            simp at h
    · simp only [Except.ok.injEq, Prod.mk.injEq] at h
      obtain ⟨h1, h2, h3⟩ := h
      rw [← h1] at hkr
      exact hinv kv hkr

/-- **C7**: `mapEntry` reads a varint length and then tagged fields until the
sub-end, accepting only field numbers 1 (key) and 2 (value): (1) any other
field number fails with MalformedMapEntry; (2) an empty entry yields the zero
value of the key type (BOOL stringified to "false") and the zero value of the
value type (scalar default, enum 0, or the freshly created message); (3) BOOL
keys are stringified to "true"/"false"; (4) for every scalar type legal as a
proto3 map key, the returned key is a string or a number. -/
theorem c7_map_entry (tn fn : String) (K : ScalarType) (V : MapV)
    (opts : BinaryReadOptions) :
    (∀ data pos elen tagv,
      HasAt data pos (varintEnc elen) → elen < 2 ^ 32 → 0 < elen →
      HasAt data (pos + (varintEnc elen).length) (varintEnc tagv) → tagv < 2 ^ 32 →
      tagv / 8 ≠ 1 → tagv / 8 ≠ 2 →
      ReflectionBinaryReader.mapEntry tn fn K V data pos opts
        = .error (.malformedMapEntry tn fn (tagv / 8) (tagv % 8)))
    ∧
    (∀ data pos,
      HasAt data pos (varintEnc 0) →
      ReflectionBinaryReader.mapEntry tn fn K V data pos opts
        = .ok (((if K = .BOOL then .vStr "false" else reflectionScalarDefault K none),
            (match V with
             | .scalar T L => reflectionScalarDefault T L
             | .enum => .vInt 0
             | .message _ create => create)), pos + 1))
    ∧
    (K = .BOOL →
      ∀ data pos bv,
      HasAt data pos (varintEnc (1 + (varintEnc bv).length)) →
      HasAt data (pos + (varintEnc (1 + (varintEnc bv).length)).length) (varintEnc 8) →
      HasAt data (pos + (varintEnc (1 + (varintEnc bv).length)).length + 1)
        (varintEnc bv) →
      bv < 2 ^ 64 →
      ReflectionBinaryReader.mapEntry tn fn K V data pos opts
        = .ok ((.vStr (boolToString (decide (bv ≠ 0))),
            (match V with
             | .scalar T L => reflectionScalarDefault T L
             | .enum => .vInt 0
             | .message _ create => create)),
            pos + (varintEnc (1 + (varintEnc bv).length)).length + 1
              + (varintEnc bv).length))
    ∧
    (K ≠ .FLOAT → K ≠ .DOUBLE → K ≠ .BYTES →
      ∀ data pos k v p,
      ReflectionBinaryReader.mapEntry tn fn K V data pos opts = .ok ((k, v), p) →
      isStrOrNum k = true) := by
  refine ⟨?_, ?_, ?_, ?_⟩
  · intro data pos elen tagv hat0 hlen hpos hat1 htag hf1 hf2
    have h0 := readUint32_enc hat0 hlen
    have hloop : mapEntryLoop tn fn K V data opts
        (pos + (varintEnc elen).length + elen) (pos + (varintEnc elen).length + elen)
        none none (pos + (varintEnc elen).length)
        = .error (.malformedMapEntry tn fn (tagv / 8) (tagv % 8)) := by
      obtain ⟨f, hf⟩ : ∃ f, pos + (varintEnc elen).length + elen = f + 1 :=
        ⟨pos + (varintEnc elen).length + elen - 1, by omega⟩
      rw [hf]
      simp only [mapEntryLoop]
      rw [if_pos (show pos + (varintEnc elen).length < f + 1 by omega)]
      rw [readUint32_enc hat1 htag]
      simp only [if_neg hf1, if_neg hf2]
    simp only [ReflectionBinaryReader.mapEntry, h0, hloop]
  · intro data pos hat
    have hv0 : varintEnc 0 = [0] := varintEnc_small 0 (by norm_num)
    have h0 := readUint32_enc hat (by norm_num)
    simp only [ReflectionBinaryReader.mapEntry, h0,
      mapEntryLoop_stop (show ¬ pos + (varintEnc 0).length <
        pos + (varintEnc 0).length + 0 by omega)]
    by_cases hb : K = .BOOL
    · subst hb
      simp [reflectionScalarDefault, boolToString, hv0]
    · simp [if_neg hb, hv0]
  · intro hK data pos bv hat0 hat1 hat2 hbv
    subst hK
    have hlen10 : (varintEnc bv).length ≤ 10 := by
      have := varintEnc_length_le 9 bv (by norm_num at hbv ⊢; omega)
      omega
    have h0 := readUint32_enc hat0
      (show 1 + (varintEnc bv).length < 2 ^ 32 by norm_num; omega)
    have h8 : varintEnc 8 = [8] := varintEnc_small 8 (by norm_num)
    have h8r : readUint32 data (pos + (varintEnc (1 + (varintEnc bv).length)).length)
        = .ok (8, pos + (varintEnc (1 + (varintEnc bv).length)).length + 1) := by
      have := readUint32_enc hat1 (show (8:Nat) < 2 ^ 32 by norm_num)
      rw [h8] at this
      simpa using this
    have hbool : readBool data (pos + (varintEnc (1 + (varintEnc bv).length)).length + 1)
        = .ok (decide (bv ≠ 0),
            pos + (varintEnc (1 + (varintEnc bv).length)).length + 1
              + (varintEnc bv).length) := by
      simp [readBool, readVarint64_enc hat2 hbv, Except.map]
    have hloop : mapEntryLoop tn fn .BOOL V data opts
        (pos + (varintEnc (1 + (varintEnc bv).length)).length + (1 + (varintEnc bv).length))
        (pos + (varintEnc (1 + (varintEnc bv).length)).length + (1 + (varintEnc bv).length))
        none none (pos + (varintEnc (1 + (varintEnc bv).length)).length)
        = .ok (some (.vStr (boolToString (decide (bv ≠ 0)))), none,
            pos + (varintEnc (1 + (varintEnc bv).length)).length + 1
              + (varintEnc bv).length) := by
      obtain ⟨f, hf⟩ : ∃ f, pos + (varintEnc (1 + (varintEnc bv).length)).length
          + (1 + (varintEnc bv).length) = f + 1 :=
        ⟨pos + (varintEnc (1 + (varintEnc bv).length)).length + (varintEnc bv).length,
          by omega⟩
      rw [hf]
      simp only [mapEntryLoop]
      rw [if_pos (show pos + (varintEnc (1 + (varintEnc bv).length)).length < f + 1
        by omega)]
      rw [h8r]
      simp only [show (8:Nat) / 8 = 1 from rfl, if_pos rfl, hbool]
      rw [if_neg (show ¬ pos + (varintEnc (1 + (varintEnc bv).length)).length + 1
          + (varintEnc bv).length ≤ pos + (varintEnc (1 + (varintEnc bv).length)).length
        by omega)]
      rw [mapEntryLoop_stop (show ¬ pos + (varintEnc (1 + (varintEnc bv).length)).length
          + 1 + (varintEnc bv).length < f + 1 by omega)]
      simp
    simp only [ReflectionBinaryReader.mapEntry, h0, hloop]
  · intro hK1 hK2 hK3 data pos k v p h
    simp only [ReflectionBinaryReader.mapEntry] at h
    split at h
    · simp at h
    next len p0 hu =>
      split at h
      · simp at h
      next key? val? p1 hloop =>
        have hk := mapEntryLoop_key_kind hK1 hK2 hK3
          (fun kv hkv => by simp at hkv) hloop
        simp only [Except.ok.injEq, Prod.mk.injEq] at h
        obtain ⟨⟨hkey, hval⟩, hp⟩ := h
        subst hkey
        cases key? with
        | some kv => simpa using hk kv rfl
        | none =>
          by_cases hb : K = .BOOL
          · subst hb
            simp [reflectionScalarDefault, isStrOrNum]
          · cases K <;>
              simp_all [reflectionScalarDefault, reflectionLongConvert, isStrOrNum]

/-- Witness for C7 at concrete inputs: a stray field number 3 in a map entry
is malformed; an empty INT32→enum entry yields key 0 and value 0; a BOOL key
entry `08 01` stringifies to "true"; a successful INT32-keyed read produces a
numeric key. -/
theorem c7_map_entry_witness :
    ReflectionBinaryReader.mapEntry "T" "f" .INT32 .enum [2, 24, 0] 0 ⟨.uThrow⟩
      = .error (.malformedMapEntry "T" "f" 3 0)
    ∧ ReflectionBinaryReader.mapEntry "T" "f" .INT32 .enum [0] 0 ⟨.uThrow⟩
      = .ok ((.vInt 0, .vInt 0), 1)
    ∧ ReflectionBinaryReader.mapEntry "T" "f" .BOOL .enum [2, 8, 1] 0 ⟨.uThrow⟩
      = .ok ((.vStr "true", .vInt 0), 3)
    ∧ isStrOrNum (Val.vInt 0) = true := by
  have h := c7_map_entry "T" "f" .INT32 .enum ⟨.uThrow⟩
  have hb := c7_map_entry "T" "f" .BOOL .enum ⟨.uThrow⟩
  refine ⟨?_, ?_, ?_, ?_⟩
  · have := h.1 [2, 24, 0] 0 2 24 (hasAt_append [] (varintEnc 2) [24, 0])
      (by norm_num) (by norm_num) (hasAt_append [2] (varintEnc 24) [0])
      (by norm_num) (by norm_num) (by norm_num)
    simpa using this
  · have := h.2.1 [0] 0 (hasAt_append [] (varintEnc 0) [])
    simpa using this
  · have := hb.2.2.1 rfl [2, 8, 1] 0 1
      (hasAt_append [] (varintEnc (1 + (varintEnc 1).length)) [8, 1])
      (hasAt_append [2] (varintEnc 8) [1])
      (hasAt_append [2, 8] (varintEnc 1) [])
      (by norm_num)
    simpa using this
  · exact h.2.2.2 (by simp) (by simp) (by simp) [0] 0 (.vInt 0) (.vInt 0) 1
      (by have := h.2.1 [0] 0 (hasAt_append [] (varintEnc 0) []); simpa using this)

/-! ## Claim C10 -/

/-- One tagged record inside a map entry: a key record (field number 1) or a
value record (field number 2), with its wire type, the encoded payload bytes,
and the decoded value. -/
structure MapItem where
  isKey : Bool
  wt : Nat
  chunk : List Nat
  value : Val

def mapItemFieldNo (it : MapItem) : Nat := if it.isKey then 1 else 2

def mapItemEnc (it : MapItem) : List Nat :=
  varintEnc (8 * mapItemFieldNo it + it.wt) ++ it.chunk

def mapItemsEnc (its : List MapItem) : List Nat :=
  (its.map mapItemEnc).flatten

/-- The key accumulator after processing the items in order: every key
record overwrites the previous one. -/
def foldKey (its : List MapItem) (k0 : Option Val) : Option Val :=
  its.foldl (fun acc it => if it.isKey then some it.value else acc) k0

def foldVal (its : List MapItem) (v0 : Option Val) : Option Val :=
  its.foldl (fun acc it => if it.isKey then acc else some it.value) v0

/-- The payload of the item parses, by the read the map-entry loop performs
for its field number, to the item's decoded value, consuming exactly the
payload bytes. -/
def MapItemParses (K : ScalarType) (V : MapV) (opts : BinaryReadOptions)
    (it : MapItem) : Prop :=
  it.wt < 8 ∧
  ∀ data pos, HasAt data pos it.chunk →
    if it.isKey then
      (if K = .BOOL then
        ∃ b, readBool data pos = .ok (b, pos + it.chunk.length)
          ∧ it.value = .vStr (boolToString b)
      else ReflectionBinaryReader.scalar data pos K (some .STRING)
        = .ok (it.value, pos + it.chunk.length))
    else
      match V with
      | .scalar T L => ReflectionBinaryReader.scalar data pos T L
          = .ok (it.value, pos + it.chunk.length)
      | .enum => ∃ n, readInt32 data pos = .ok (n, pos + it.chunk.length)
          ∧ it.value = .vInt n
      | .message inner _ => ∃ len p1, readUint32 data pos = .ok (len, p1)
          ∧ inner data p1 len opts none = .ok (it.value, pos + it.chunk.length)

theorem mapItemTag_lt (it : MapItem) (hwt : it.wt < 8) :
    8 * mapItemFieldNo it + it.wt < 2 ^ 32 := by
  unfold mapItemFieldNo
  split <;> omega

theorem mapItemTag_div (it : MapItem) (hwt : it.wt < 8) :
    (8 * mapItemFieldNo it + it.wt) / 8 = mapItemFieldNo it := by
  omega

/-- Running the map-entry loop over an encoded item list folds every item
into the key/value accumulators in order and consumes all bytes. -/
theorem mapEntryLoop_items {tn fn : String} {K : ScalarType} {V : MapV}
    {opts : BinaryReadOptions} :
    ∀ (its : List MapItem), (∀ it ∈ its, MapItemParses K V opts it) →
    ∀ {data : List Nat} {pos : Nat} {key? val? : Option Val} {fuel : Nat},
    HasAt data pos (mapItemsEnc its) →
    (mapItemsEnc its).length ≤ fuel →
    mapEntryLoop tn fn K V data opts fuel (pos + (mapItemsEnc its).length) key? val? pos
      = .ok (foldKey its key?, foldVal its val?, pos + (mapItemsEnc its).length) := by
  intro its
  induction its with
  | nil =>
    intro _ data pos key? val? fuel hat hfuel
    simp only [mapItemsEnc, List.map_nil, List.flatten_nil, List.length_nil,
      Nat.add_zero, foldKey, foldVal, List.foldl_nil]
    exact mapEntryLoop_stop (by omega)
  | cons it its ih =>
    intro hits data pos key? val? fuel hat hfuel
    have hit := hits it (by simp)
    obtain ⟨hwt, hparse⟩ := hit
    have hrest : ∀ it2 ∈ its, MapItemParses K V opts it2 :=
      fun it2 h2 => hits it2 (by simp [h2])
    have hencc : mapItemsEnc (it :: its) = mapItemEnc it ++ mapItemsEnc its := by
      simp [mapItemsEnc]
    rw [hencc] at hat hfuel ⊢
    obtain ⟨hat_it, hat_rest⟩ := hasAt_of_append hat
    have henc_it : mapItemEnc it = varintEnc (8 * mapItemFieldNo it + it.wt) ++ it.chunk :=
      rfl
    rw [henc_it] at hat_it
    obtain ⟨hat_tag, hat_chunk⟩ := hasAt_of_append hat_it
    have htaglen : 0 < (varintEnc (8 * mapItemFieldNo it + it.wt)).length :=
      varintEnc_length_pos _
    have hlen_split : (mapItemEnc it ++ mapItemsEnc its).length
        = (varintEnc (8 * mapItemFieldNo it + it.wt)).length + it.chunk.length
          + (mapItemsEnc its).length := by
      simp [henc_it]; omega
    obtain ⟨f, hf⟩ : ∃ f, fuel = f + 1 := ⟨fuel - 1, by omega⟩
    subst hf
    have hfuel' : (mapItemsEnc its).length ≤ f := by omega
    have hu := readUint32_enc hat_tag (mapItemTag_lt it hwt)
    have hdiv := mapItemTag_div it hwt
    have hitlen : (mapItemEnc it).length
        = (varintEnc (8 * mapItemFieldNo it + it.wt)).length + it.chunk.length := by
      simp [henc_it]
    have hat_rest' : HasAt data
        (pos + (varintEnc (8 * mapItemFieldNo it + it.wt)).length + it.chunk.length)
        (mapItemsEnc its) := by
      rw [hitlen, ← Nat.add_assoc] at hat_rest
      exact hat_rest
    have he : pos + (mapItemEnc it ++ mapItemsEnc its).length
        = pos + (varintEnc (8 * mapItemFieldNo it + it.wt)).length + it.chunk.length
          + (mapItemsEnc its).length := by
      rw [hlen_split]; omega
    simp only [mapEntryLoop]
    rw [if_pos (show pos < pos + (mapItemEnc it ++ mapItemsEnc its).length by omega)]
    simp only [hu, hdiv]
    have hchunk := hparse data
      (pos + (varintEnc (8 * mapItemFieldNo it + it.wt)).length) hat_chunk
    cases hik : it.isKey with
    | true =>
      have hfno : mapItemFieldNo it = 1 := by simp [mapItemFieldNo, hik]
      rw [hik] at hchunk
      simp only [if_pos rfl] at hchunk
      rw [if_pos hfno]
      by_cases hb : K = .BOOL
      · rw [if_pos hb]
        rw [if_pos hb] at hchunk
        obtain ⟨b, hread, hval⟩ := hchunk
        simp only [hread]
        rw [if_neg (show ¬ pos + (varintEnc (8 * mapItemFieldNo it + it.wt)).length
            + it.chunk.length ≤ pos by omega)]
        rw [he]
        rw [ih hrest hat_rest' hfuel']
        simp [foldKey, foldVal, hik, hval]
      · rw [if_neg hb]
        rw [if_neg hb] at hchunk
        have hgt : ¬ pos + (varintEnc (8 * mapItemFieldNo it + it.wt)).length
            + it.chunk.length ≤ pos := by omega
        rw [hchunk]
        simp only [if_neg hgt]
        rw [he]
        rw [ih hrest hat_rest' hfuel']
        simp [foldKey, foldVal, hik]
    | false =>
      have hfno : mapItemFieldNo it = 2 := by simp [mapItemFieldNo, hik]
      rw [hik] at hchunk
      simp only [Bool.false_eq_true, if_false] at hchunk
      rw [if_neg (show ¬ mapItemFieldNo it = 1 by rw [hfno]; norm_num)]
      rw [if_pos hfno]
      cases V with
      | scalar T L =>
        simp only [hchunk]
        rw [if_neg (show ¬ pos + (varintEnc (8 * mapItemFieldNo it + it.wt)).length
            + it.chunk.length ≤ pos by omega)]
        rw [he]
        rw [ih hrest hat_rest' hfuel']
        simp [foldKey, foldVal, hik]
      | enum =>
        obtain ⟨n, hread, hval⟩ := hchunk
        simp only [hread]
        rw [if_neg (show ¬ pos + (varintEnc (8 * mapItemFieldNo it + it.wt)).length
            + it.chunk.length ≤ pos by omega)]
        rw [he]
        rw [ih hrest hat_rest' hfuel']
        simp [foldKey, foldVal, hik, hval]
      | message inner create =>
        obtain ⟨len2, p1, hread, hinner⟩ := hchunk
        simp only [hread, hinner]
        rw [if_neg (show ¬ pos + (varintEnc (8 * mapItemFieldNo it + it.wt)).length
            + it.chunk.length ≤ pos by omega)]
        rw [he]
        rw [ih hrest hat_rest' hfuel']
        simp [foldKey, foldVal, hik]

/-- Folding the key accumulator over the items selects the value of the
LAST key record. -/
theorem foldKey_last (its : List MapItem) (k0 : Option Val) :
    foldKey its k0 = match (its.filter fun it => it.isKey).getLast? with
      | some kit => some kit.value
      | none => k0 := by
  induction its using List.reverseRecOn with
  | nil => simp [foldKey]
  | append_singleton xs it ih =>
    by_cases hk : it.isKey
    · simp [foldKey, List.foldl_append, List.filter_append, hk]
    · simp only [foldKey, List.foldl_append, List.foldl_cons, List.foldl_nil,
        List.filter_append, hk, Bool.false_eq_true, if_false,
        List.filter_cons_of_neg, List.filter_nil, List.append_nil]
      simpa [foldKey, hk] using ih

/-- Folding the value accumulator over the items selects the value of the
LAST value record. -/
theorem foldVal_last (its : List MapItem) (v0 : Option Val) :
    foldVal its v0 = match (its.filter fun it => !it.isKey).getLast? with
      | some vit => some vit.value
      | none => v0 := by
  induction its using List.reverseRecOn with
  | nil => simp [foldVal]
  | append_singleton xs it ih =>
    by_cases hk : it.isKey
    · simp only [foldVal, List.foldl_append, List.foldl_cons, List.foldl_nil,
        List.filter_append, hk, if_true, Bool.not_true,
        List.filter_cons_of_neg, List.filter_nil, List.append_nil]
      simpa [foldVal, hk] using ih
    · simp [foldVal, List.foldl_append, List.filter_append, hk]

/-- **C10**: within a single map-entry decode, the last occurrence wins:
decoding an entry holding any sequence of key (field 1) and value (field 2)
records returns the value of the LAST key record and of the LAST value
record, and the cursor consumes the whole entry, so every earlier occurrence
is read and discarded. -/
theorem c10_map_entry_last_wins (tn fn : String) (K : ScalarType) (V : MapV)
    (opts : BinaryReadOptions) (its : List MapItem) (data : List Nat) (pos : Nat)
    (kv vv : Val)
    (hits : ∀ it ∈ its, MapItemParses K V opts it)
    (hlen : (mapItemsEnc its).length < 2 ^ 32)
    (hat : HasAt data pos (varintEnc (mapItemsEnc its).length ++ mapItemsEnc its))
    (hkey : foldKey its none = some kv) (hval : foldVal its none = some vv) :
    ReflectionBinaryReader.mapEntry tn fn K V data pos opts
      = .ok ((kv, vv),
          pos + (varintEnc (mapItemsEnc its).length).length + (mapItemsEnc its).length)
    ∧ (∃ kit, (its.filter fun it => it.isKey).getLast? = some kit ∧ kit.value = kv)
    ∧ (∃ vit, (its.filter fun it => !it.isKey).getLast? = some vit ∧ vit.value = vv) := by
  obtain ⟨hat_pre, hat_items⟩ := hasAt_of_append hat
  have h0 := readUint32_enc hat_pre hlen
  have hloop := @mapEntryLoop_items tn fn K V opts its hits data
    (pos + (varintEnc (mapItemsEnc its).length).length) none none
    (pos + (varintEnc (mapItemsEnc its).length).length + (mapItemsEnc its).length)
    hat_items (by omega)
  refine ⟨?_, ?_, ?_⟩
  · simp only [ReflectionBinaryReader.mapEntry, h0, hloop, hkey, hval]
  · have hl := foldKey_last its none
    rw [hkey] at hl
    cases hlast : (its.filter fun it => it.isKey).getLast? with
    | none => rw [hlast] at hl; simp at hl
    | some kit =>
      rw [hlast] at hl
      simp only [Option.some.injEq] at hl
      exact ⟨kit, rfl, hl.symm⟩
  · have hl := foldVal_last its none
    rw [hval] at hl
    cases hlast : (its.filter fun it => !it.isKey).getLast? with
    | none => rw [hlast] at hl; simp at hl
    | some vit =>
      rw [hlast] at hl
      simp only [Option.some.injEq] at hl
      exact ⟨vit, rfl, hl.symm⟩

/-- Witness for C10: the entry `06 08 03 10 05 08 07` holds key=3, value=5,
key=7; the decode returns key 7 (the last key record) with value 5 and
consumes all 7 bytes. -/
theorem c10_map_entry_last_wins_witness :
    ReflectionBinaryReader.mapEntry "T" "f" .INT32 .enum [6, 8, 3, 16, 5, 8, 7] 0
        ⟨.uThrow⟩
      = .ok (((.vInt (toSigned32 7) : Val), (.vInt (toSigned32 5) : Val)), 7) := by
  have h := c10_map_entry_last_wins "T" "f" .INT32 .enum ⟨.uThrow⟩
    [⟨true, 0, varintEnc 3, .vInt (toSigned32 3)⟩,
     ⟨false, 0, varintEnc 5, .vInt (toSigned32 5)⟩,
     ⟨true, 0, varintEnc 7, .vInt (toSigned32 7)⟩]
    [6, 8, 3, 16, 5, 8, 7] 0 (.vInt (toSigned32 7)) (.vInt (toSigned32 5))
    ?_ (by decide) (hasAt_self _) rfl rfl
  · exact h.1
  · intro it hit
    simp only [List.mem_cons, List.not_mem_nil, or_false] at hit
    rcases hit with rfl | rfl | rfl
    · refine ⟨by norm_num, fun data pos hp => ?_⟩
      rw [if_pos rfl, if_neg (by simp : ¬ (ScalarType.INT32 = ScalarType.BOOL))]
      exact scalarParses_int32 3 (by norm_num) (some .STRING) data pos hp
    · refine ⟨by norm_num, fun data pos hp => ?_⟩
      rw [if_neg (by simp : ¬ ((false : Bool) = true))]
      exact ⟨toSigned32 5, by
        simp [readInt32, readVarint64_enc hp (by norm_num : (5:Nat) < 2 ^ 64),
          Except.map], rfl⟩
    · refine ⟨by norm_num, fun data pos hp => ?_⟩
      rw [if_pos rfl, if_neg (by simp : ¬ (ScalarType.INT32 = ScalarType.BOOL))]
      exact scalarParses_int32 7 (by norm_num) (some .STRING) data pos hp

end PTS
